import Mathlib

set_option linter.unusedVariables false
set_option maxRecDepth 10000

unseal Rat.ofScientific Rat.mul Rat.add Rat.sub Rat.inv

/-!
Verification of the natural-language transaction parser and its
confidence-driven disambiguation workflow of a conversational finance
tracker.  The definitions below are a shallow embedding of the Python
sources:

* bot/services/expense_parser.py   (class ExpenseParser)
* bot/handlers/private/expenses.py (class ExpenseHandler, category_selected)
* bot/services/category_service.py (class CategoryService)

Modelling conventions:

* Python strings are modelled as List Char.  Python float is modelled by
  the rationals (exact arithmetic); every numeric literal of the source
  appears verbatim as a rational literal.
* The two compiled regular expressions of the parser (amount_pattern and
  currency_pattern) are implemented as explicit backtracking matchers over
  List Char that follow Python re semantics for exactly these two
  patterns: leftmost match, alternatives tried in written order, greedy
  quantifiers with backtracking, findall and sub scanning forward over
  non-overlapping matches.
* str.lower is modelled for the character repertoire that occurs in the
  keyword tables and inputs: ASCII letters and the Cyrillic block.
  The word-character class of the regex escape \b is modelled as ASCII
  alphanumerics, underscore, and the Cyrillic block U+0400-U+04FF; the
  whitespace class as the six ASCII whitespace characters.
-/

namespace FinanceTracker

/-- Characters of the Python whitespace class (ASCII part), used by the
regex classes and by str.strip / str.split. -/
def pySpace (c : Char) : Bool :=
  c = ' ' || c = '\t' || c = '\n' || c = '\x0d' || c = '\x0b' || c = '\x0c'

/-- Model of str.lower for the repertoire in play: ASCII upper to lower,
Cyrillic upper range U+0410-U+042F to U+0430-U+044F, and U+0401 to U+0451.
All other characters are fixed. -/
def toLowerCh (c : Char) : Char :=
  if 65 ≤ c.toNat && c.toNat ≤ 90 then Char.ofNat (c.toNat + 32)
  else if 0x410 ≤ c.toNat && c.toNat ≤ 0x42F then Char.ofNat (c.toNat + 0x20)
  else if c.toNat = 0x401 then Char.ofNat 0x451
  else c

def toLowerL (s : List Char) : List Char := s.map toLowerCh

/-- Model of the word-character class of the regex escape for word
boundaries: ASCII digits, ASCII letters, underscore, and the Cyrillic
block (the alphabets used by the keyword tables). -/
def wordChar (c : Char) : Bool :=
  (48 ≤ c.toNat && c.toNat ≤ 57) ||
  (65 ≤ c.toNat && c.toNat ≤ 90) ||
  (97 ≤ c.toNat && c.toNat ≤ 122) ||
  c.toNat = 95 ||
  (0x400 ≤ c.toNat && c.toNat ≤ 0x4FF)

def asciiDigit (c : Char) : Bool := 48 ≤ c.toNat && c.toNat ≤ 57

/-- Python substring containment (the in operator on str): needle occurs
contiguously in haystack.  The empty needle is contained everywhere. -/
def containsSub : List Char → List Char → Bool
  | n, [] => n.isEmpty
  | n, c :: rest => n.isPrefixOf (c :: rest) || containsSub n rest

/-- Convenience: characters of a string literal. -/
def lc (s : String) : List Char := s.data

/-- Python str.strip(): remove leading and trailing whitespace. -/
def pyStrip (s : List Char) : List Char :=
  ((s.dropWhile pySpace).reverse.dropWhile pySpace).reverse

/-- Python str.strip(chars): remove leading and trailing characters drawn
from the given set. -/
def pyStripChars (set : List Char) (s : List Char) : List Char :=
  ((s.dropWhile set.contains).reverse.dropWhile set.contains).reverse

/-- Python str.split(sep) for a single-character separator: split at every
occurrence, keeping empty pieces. -/
def splitOn (sep : Char) : List Char → List (List Char)
  | [] => [[]]
  | c :: rest =>
    let r := splitOn sep rest
    if c = sep then [] :: r
    else match r with
      | [] => [[c]]
      | p :: ps => (c :: p) :: ps

/-- Python str.split() with no argument: split on whitespace runs,
discarding empty pieces (used for word counts). -/
def pyWords : List Char → List (List Char)
  | [] => []
  | c :: rest =>
    if pySpace c then pyWords rest
    else match pyWords rest with
      | [] => [[c]]
      | p :: ps =>
        match rest with
        | [] => [[c]]
        | d :: _ => if pySpace d then [c] :: p :: ps else (c :: p) :: ps

/-! ## The two compiled regular expressions of ExpenseParser.__init__

amount_pattern:
  (?:^|\s|,)(\d+(?:[.,]\d+)?)\s*(?:k|к|thousand|тысяч|т|thous)?(?:\s|,|$)
  compiled with IGNORECASE.

currency_pattern:   one of the four currency symbols, then \s*(\d+(?:[.,]\d+)?)
-/

/-- One match of amount_pattern, split into the syntactic pieces of the
pattern.  Group 0 is the concatenation of all pieces, group 1 is
intPart (plus the decimal part). -/
structure AmountMatch where
  lead : Option Char
  intPart : List Char
  decPart : Option (Char × List Char)
  spaces : List Char
  suffix : List Char
  trail : Option Char
deriving DecidableEq, Repr

def amountGroup0 (m : AmountMatch) : List Char :=
  m.lead.toList ++ m.intPart ++
    (match m.decPart with | none => [] | some (sep, ds) => sep :: ds) ++
    m.spaces ++ m.suffix ++ m.trail.toList

def amountGroup1 (m : AmountMatch) : List Char :=
  m.intPart ++ (match m.decPart with | none => [] | some (sep, ds) => sep :: ds)

/-- The thousands-suffix alternatives, in the order written in the
pattern. -/
def suffixAlts : List (List Char) :=
  [lc "k", lc "к", lc "thousand", lc "тысяч", lc "т", lc "thous"]

/-- Case-insensitive literal prefix match (the pattern is compiled with
IGNORECASE and all alternative literals are lower case).  Returns the
consumed original characters and the rest. -/
def matchCIPrefix : List Char → List Char → Option (List Char × List Char)
  | [], s => some ([], s)
  | _ :: _, [] => none
  | a :: kw, c :: s =>
    if toLowerCh c = a then
      (matchCIPrefix kw s).map (fun p => (c :: p.1, p.2))
    else none

/-- The final (?:\s|,|$) of amount_pattern: consumes one whitespace or
comma, or succeeds consuming nothing at the end of the input. -/
def matchTrail : List Char → Option (Option Char × List Char)
  | [] => some (none, [])
  | c :: rest => if pySpace c || c = ',' then some (some c, rest) else none

/-- Try the suffix alternatives in pattern order, each followed by the
trailing boundary; backtrack to the next alternative when the boundary
fails. -/
def tryAlts : List (List Char) → List Char → Option (List Char × Option Char × List Char)
  | [], _ => none
  | alt :: alts, s =>
    match matchCIPrefix alt s with
    | some (u, r) =>
      match matchTrail r with
      | some (t, r2) => some (u, t, r2)
      | none => tryAlts alts s
    | none => tryAlts alts s

/-- The optional greedy suffix group followed by the boundary: the
alternatives are tried first, then the empty suffix. -/
def matchSufThenTrail (s : List Char) : Option (List Char × Option Char × List Char) :=
  match tryAlts suffixAlts s with
  | some r => some r
  | none => (matchTrail s).map (fun p => ([], p.1, p.2))

/-- Greedy \s* with backtracking: try consuming k whitespace characters,
from the maximal run length downwards.  Returns (spaces, suffix, trail,
rest). -/
def trySpaces (s : List Char) (k : Nat) : Option (List Char × List Char × Option Char × List Char) :=
  match matchSufThenTrail (s.drop k) with
  | some (suf, t, r) => some (s.take k, suf, t, r)
  | none =>
    match k with
    | 0 => none
    | k' + 1 => trySpaces s k'

def matchSpacesSufTrail (s : List Char) : Option (List Char × List Char × Option Char × List Char) :=
  trySpaces s (s.takeWhile pySpace).length

/-- The no-decimal continuation of amount_pattern after the integer
digits ds: match \s*, the optional suffix and the trailing boundary on
r1 (the text after the digits). -/
def matchNumNoDec (ds r1 : List Char) : Option (AmountMatch × List Char) :=
  (matchSpacesSufTrail r1).map
    (fun p => (⟨none, ds, none, p.1, p.2.1, p.2.2.1⟩, p.2.2.2))

/-- Matcher for amount_pattern starting right at the digits (the leading
^ / whitespace / comma has already been handled by the caller).  Greedy
\d+ and the greedy optional decimal group with backtracking to the
no-decimal case when the rest of the pattern fails after it. -/
def matchNumTail (s : List Char) : Option (AmountMatch × List Char) :=
  if (s.takeWhile asciiDigit).isEmpty then none
  else
    match s.dropWhile asciiDigit with
    | sep :: r2 =>
      if sep = '.' || sep = ',' then
        if (r2.takeWhile asciiDigit).isEmpty then
          matchNumNoDec (s.takeWhile asciiDigit) (s.dropWhile asciiDigit)
        else
          match matchSpacesSufTrail (r2.dropWhile asciiDigit) with
          | some p =>
            some (⟨none, s.takeWhile asciiDigit, some (sep, r2.takeWhile asciiDigit),
                   p.1, p.2.1, p.2.2.1⟩, p.2.2.2)
          | none => matchNumNoDec (s.takeWhile asciiDigit) (s.dropWhile asciiDigit)
      else matchNumNoDec (s.takeWhile asciiDigit) (s.dropWhile asciiDigit)
    | [] => matchNumNoDec (s.takeWhile asciiDigit) (s.dropWhile asciiDigit)

/-- Matcher for amount_pattern anchored at the current position.
atStart is true only at the very beginning of the subject: there the ^
alternative applies (the match starts directly at the digits); at any
position a leading whitespace/comma character starts the match. -/
def tryAmountAt (atStart : Bool) (s : List Char) : Option (AmountMatch × List Char) :=
  match (if atStart then matchNumTail s else none) with
  | some (m, rest) => some (m, rest)
  | none =>
    match s with
    | [] => none
    | c :: rest =>
      if pySpace c || c = ',' then
        (matchNumTail rest).map (fun p => ({ p.1 with lead := some c }, p.2))
      else none

theorem matchCIPrefix_decomp (kw : List Char) :
    ∀ s u r, matchCIPrefix kw s = some (u, r) → s = u ++ r := by
  induction kw with
  | nil =>
    intro s u r h
    simp only [matchCIPrefix, Option.some_inj, Prod.mk.injEq] at h
    rw [← h.1, ← h.2]; simp
  | cons a kw ih =>
    intro s u r h
    cases s with
    | nil => exact Option.noConfusion h
    | cons c s' =>
      simp only [matchCIPrefix] at h
      split at h
      · obtain ⟨p, hp, he⟩ := Option.map_eq_some'.mp h
        obtain ⟨u', r'⟩ := p
        simp only [Prod.mk.injEq] at he
        rw [← he.1, ← he.2]
        simpa using ih s' u' r' hp
      · exact absurd h (by simp)

theorem matchTrail_decomp :
    ∀ s t r, matchTrail s = some (t, r) → s = t.toList ++ r := by
  intro s t r h
  cases s with
  | nil => simp [matchTrail] at h; simp [h.1.symm, h.2.symm]
  | cons c s' =>
    simp only [matchTrail] at h
    split at h
    · cases h; simp
    · simp at h

theorem tryAlts_decomp :
    ∀ alts s u t r, tryAlts alts s = some (u, t, r) → s = u ++ t.toList ++ r := by
  intro alts
  induction alts with
  | nil => intro s u t r h; exact Option.noConfusion h
  | cons alt alts ih =>
    intro s u t r h
    simp only [tryAlts] at h
    cases h1 : matchCIPrefix alt s with
    | none => rw [h1] at h; exact ih s u t r h
    | some p =>
      obtain ⟨u', r'⟩ := p
      rw [h1] at h
      dsimp only at h
      cases h2 : matchTrail r' with
      | none => rw [h2] at h; exact ih s u t r h
      | some q =>
        obtain ⟨t', r2⟩ := q
        rw [h2] at h
        simp only [Option.some_inj, Prod.mk.injEq] at h
        obtain ⟨hu, ht, hr⟩ := h
        subst hu ht hr
        have e1 := matchCIPrefix_decomp alt s _ _ h1
        have e2 := matchTrail_decomp r' _ _ h2
        rw [e1, e2]; simp

theorem matchSufThenTrail_decomp :
    ∀ s u t r, matchSufThenTrail s = some (u, t, r) → s = u ++ t.toList ++ r := by
  intro s u t r h
  simp only [matchSufThenTrail] at h
  cases h1 : tryAlts suffixAlts s with
  | some q =>
    rw [h1] at h
    simp only [Option.some_inj] at h
    rw [h] at h1
    exact tryAlts_decomp _ s u t r h1
  | none =>
    rw [h1] at h
    obtain ⟨p, hp, he⟩ := Option.map_eq_some'.mp h
    obtain ⟨t', r'⟩ := p
    simp only [Prod.mk.injEq] at he
    obtain ⟨hu, ht, hr⟩ := he
    subst ht hr
    rw [← hu]
    simpa using matchTrail_decomp s _ _ hp

theorem trySpaces_decomp (s : List Char) :
    ∀ k sp suf t r, trySpaces s k = some (sp, suf, t, r) →
      s = sp ++ suf ++ t.toList ++ r := by
  intro k
  induction k with
  | zero =>
    intro sp suf t r h
    rw [trySpaces] at h
    cases h1 : matchSufThenTrail (s.drop 0) with
    | none => rw [h1] at h; exact absurd h (by simp)
    | some q =>
      obtain ⟨suf', t', r'⟩ := q
      rw [h1] at h
      simp only [Option.some_inj, Prod.mk.injEq] at h
      obtain ⟨hsp, hsuf, ht, hr⟩ := h
      subst hsuf ht hr
      rw [← hsp]
      have := matchSufThenTrail_decomp _ _ _ _ h1
      simpa using this
  | succ k ih =>
    intro sp suf t r h
    rw [trySpaces] at h
    cases h1 : matchSufThenTrail (s.drop (k + 1)) with
    | none => rw [h1] at h; exact ih sp suf t r h
    | some q =>
      obtain ⟨suf', t', r'⟩ := q
      rw [h1] at h
      simp only [Option.some_inj, Prod.mk.injEq] at h
      obtain ⟨hsp, hsuf, ht, hr⟩ := h
      subst hsuf ht hr
      rw [← hsp]
      have := matchSufThenTrail_decomp _ _ _ _ h1
      conv_lhs => rw [← List.take_append_drop (k + 1) s]
      rw [this]; simp

theorem matchSpacesSufTrail_decomp :
    ∀ s sp suf t r, matchSpacesSufTrail s = some (sp, suf, t, r) →
      s = sp ++ suf ++ t.toList ++ r := by
  intro s sp suf t r h
  exact trySpaces_decomp s _ sp suf t r h

theorem matchNumNoDec_decomp :
    ∀ ds r1 m rest, matchNumNoDec ds r1 = some (m, rest) →
      r1 = m.spaces ++ m.suffix ++ m.trail.toList ++ rest ∧
      m.intPart = ds ∧ m.decPart = none ∧ m.lead = none := by
  intro ds r1 m rest h
  obtain ⟨p, hp, he⟩ := Option.map_eq_some'.mp h
  obtain ⟨sp, suf, t, r'⟩ := p
  simp only [Prod.mk.injEq] at he
  obtain ⟨hm, hr⟩ := he
  subst hr
  rw [← hm]
  exact ⟨matchSpacesSufTrail_decomp _ _ _ _ _ hp, rfl, rfl, rfl⟩

theorem matchNumTail_decomp :
    ∀ s m rest, matchNumTail s = some (m, rest) →
      s = amountGroup0 m ++ rest ∧ m.intPart ≠ [] ∧ m.lead = none := by
  intro s m rest h
  rw [matchNumTail] at h
  by_cases hds : (s.takeWhile asciiDigit).isEmpty
  · rw [if_pos hds] at h; exact absurd h (by simp)
  · rw [if_neg hds] at h
    have hsplit : s.takeWhile asciiDigit ++ s.dropWhile asciiDigit = s :=
      List.takeWhile_append_dropWhile _ _
    have hne : s.takeWhile asciiDigit ≠ [] := fun he => by simp [he] at hds
    have hnoDec :
        matchNumNoDec (s.takeWhile asciiDigit) (s.dropWhile asciiDigit) = some (m, rest) →
        s = amountGroup0 m ++ rest ∧ m.intPart ≠ [] ∧ m.lead = none := by
      intro hmap
      obtain ⟨hr1, hint, hdec, hlead⟩ := matchNumNoDec_decomp _ _ _ _ hmap
      refine ⟨?_, by rw [hint]; exact hne, hlead⟩
      conv_lhs => rw [← hsplit, hr1]
      simp [amountGroup0, hint, hdec, hlead]
    cases hdw : s.dropWhile asciiDigit with
    | nil => rw [hdw] at h; rw [hdw] at hnoDec; exact hnoDec h
    | cons sep r2 =>
      rw [hdw] at h; rw [hdw] at hnoDec
      dsimp only at h
      by_cases hsep : sep = '.' || sep = ','
      · rw [if_pos hsep] at h
        by_cases hds2 : (r2.takeWhile asciiDigit).isEmpty
        · rw [if_pos hds2] at h; exact hnoDec h
        · rw [if_neg hds2] at h
          cases h1 : matchSpacesSufTrail (r2.dropWhile asciiDigit) with
          | none => rw [h1] at h; exact hnoDec h
          | some p =>
            obtain ⟨sp, suf, t, r'⟩ := p
            rw [h1] at h
            simp only [Option.some_inj, Prod.mk.injEq] at h
            obtain ⟨hm, hr⟩ := h
            subst hr
            rw [← hm]
            refine ⟨?_, hne, rfl⟩
            have := matchSpacesSufTrail_decomp _ _ _ _ _ h1
            have hsplit2 : r2.takeWhile asciiDigit ++ r2.dropWhile asciiDigit = r2 :=
              List.takeWhile_append_dropWhile _ _
            conv_lhs => rw [← hsplit, hdw, ← hsplit2, this]
            simp [amountGroup0]
      · rw [if_neg hsep] at h; exact hnoDec h

theorem tryAmountAt_decomp :
    ∀ b s m rest, tryAmountAt b s = some (m, rest) →
      s = amountGroup0 m ++ rest ∧ m.intPart ≠ [] := by
  intro b s m rest h
  rw [tryAmountAt.eq_def] at h
  cases hb : (if b then matchNumTail s else none) with
  | some p =>
    rw [hb] at h
    cases h
    have hmt : matchNumTail s = some p := by
      cases b with
      | true => simpa using hb
      | false => simp at hb
    have := matchNumTail_decomp _ _ _ hmt
    exact ⟨this.1, this.2.1⟩
  | none =>
    rw [hb] at h
    cases s with
    | nil => exact Option.noConfusion h
    | cons c s' =>
      dsimp only at h
      by_cases hc : pySpace c || c = ','
      · rw [if_pos hc] at h
        obtain ⟨p, hp, he⟩ := Option.map_eq_some'.mp h
        simp only [Prod.mk.injEq] at he
        obtain ⟨hm, hr⟩ := he
        subst hr
        rw [← hm]
        have := matchNumTail_decomp _ _ _ hp
        refine ⟨?_, this.2.1⟩
        have hg : amountGroup0 { p.1 with lead := some c } = c :: amountGroup0 p.1 := by
          simp [amountGroup0, this.2.2]
        rw [hg]
        exact congrArg (c :: ·) this.1
      · rw [if_neg hc] at h
        exact Option.noConfusion h

/-- re.findall with amount_pattern: scan left to right; at each position
try the pattern; on a match, record it and continue at the match end
(the skip counter steps over the remaining matched characters one at a
time, keeping the recursion structural on the subject). -/
def amountMatchesAux : ℕ → Bool → List Char → List AmountMatch
  | _, _, [] => []
  | skip + 1, _, _ :: rest => amountMatchesAux skip false rest
  | 0, atStart, c :: rest =>
    match tryAmountAt atStart (c :: rest) with
    | some (m, _) => m :: amountMatchesAux ((amountGroup0 m).length - 1) false rest
    | none => amountMatchesAux 0 false rest

def amountFindall (s : List Char) : List AmountMatch := amountMatchesAux 0 true s

/-- re.search with amount_pattern: the leftmost match. -/
def searchAmount (s : List Char) : Option AmountMatch :=
  (amountFindall s).head?

/-- re.sub with amount_pattern and a single-space replacement: replace
every non-overlapping match, scanning left to right. -/
def amountSubAux : ℕ → Bool → List Char → List Char
  | _, _, [] => []
  | skip + 1, _, _ :: rest => amountSubAux skip false rest
  | 0, atStart, c :: rest =>
    match tryAmountAt atStart (c :: rest) with
    | some (m, _) => ' ' :: amountSubAux ((amountGroup0 m).length - 1) false rest
    | none => c :: amountSubAux 0 false rest

def amountSub (s : List Char) : List Char := amountSubAux 0 true s

/-- One match of currency_pattern. -/
structure CurrencyMatch where
  sym : Char
  spaces : List Char
  intPart : List Char
  decPart : Option (Char × List Char)
deriving DecidableEq, Repr

def currencyGroup0 (m : CurrencyMatch) : List Char :=
  m.sym :: m.spaces ++ m.intPart ++
    (match m.decPart with | none => [] | some (sep, ds) => sep :: ds)

def currencyGroup1 (m : CurrencyMatch) : List Char :=
  m.intPart ++ (match m.decPart with | none => [] | some (sep, ds) => sep :: ds)

def currencySymbols : List Char := ['$', '€', '£', '₽']

/-- Matcher for currency_pattern anchored at the current position: one of
the currency symbols, greedy \s*, greedy \d+, greedy optional decimal
part.  No boundary follows, so no backtracking is ever needed. -/
def matchCurrencyAt : List Char → Option (CurrencyMatch × List Char)
  | [] => none
  | c :: rest =>
    if currencySymbols.contains c then
      let r1 := rest.dropWhile pySpace
      let ds := r1.takeWhile asciiDigit
      if ds.isEmpty then none
      else
        match r1.dropWhile asciiDigit with
        | sep :: r3 =>
          if sep = '.' || sep = ',' then
            if (r3.takeWhile asciiDigit).isEmpty then
              some (⟨c, rest.takeWhile pySpace, ds, none⟩, r1.dropWhile asciiDigit)
            else
              some (⟨c, rest.takeWhile pySpace, ds, some (sep, r3.takeWhile asciiDigit)⟩,
                    r3.dropWhile asciiDigit)
          else some (⟨c, rest.takeWhile pySpace, ds, none⟩, r1.dropWhile asciiDigit)
        | [] => some (⟨c, rest.takeWhile pySpace, ds, none⟩, [])
    else none

theorem matchCurrencyAt_decomp :
    ∀ s m rest, matchCurrencyAt s = some (m, rest) →
      s = currencyGroup0 m ++ rest ∧ m.intPart ≠ [] := by
  intro s m rest h
  cases s with
  | nil => exact Option.noConfusion h
  | cons c rest0 =>
    simp only [matchCurrencyAt] at h
    by_cases hc : currencySymbols.contains c
    · rw [if_pos hc] at h
      by_cases hds : ((rest0.dropWhile pySpace).takeWhile asciiDigit).isEmpty
      · rw [if_pos hds] at h; exact Option.noConfusion h
      · rw [if_neg hds] at h
        have hne : (rest0.dropWhile pySpace).takeWhile asciiDigit ≠ [] :=
          fun he => by simp [he] at hds
        have hsp : rest0.takeWhile pySpace ++ rest0.dropWhile pySpace = rest0 :=
          List.takeWhile_append_dropWhile _ _
        have hdig : (rest0.dropWhile pySpace).takeWhile asciiDigit ++
            (rest0.dropWhile pySpace).dropWhile asciiDigit = rest0.dropWhile pySpace :=
          List.takeWhile_append_dropWhile _ _
        cases hdw : (rest0.dropWhile pySpace).dropWhile asciiDigit with
        | nil =>
          rw [hdw] at h
          simp only [Option.some_inj, Prod.mk.injEq] at h
          obtain ⟨hm, hr⟩ := h
          rw [← hm, ← hr]
          refine ⟨?_, hne⟩
          conv_lhs => rw [← hsp, ← hdig, hdw]
          simp [currencyGroup0]
        | cons sep r3 =>
          rw [hdw] at h
          dsimp only at h
          by_cases hsep : sep = '.' || sep = ','
          · rw [if_pos hsep] at h
            by_cases hds2 : (r3.takeWhile asciiDigit).isEmpty
            · rw [if_pos hds2] at h
              simp only [Option.some_inj, Prod.mk.injEq] at h
              obtain ⟨hm, hr⟩ := h
              rw [← hm, ← hr]
              refine ⟨?_, hne⟩
              conv_lhs => rw [← hsp, ← hdig, hdw]
              simp [currencyGroup0]
            · rw [if_neg hds2] at h
              simp only [Option.some_inj, Prod.mk.injEq] at h
              obtain ⟨hm, hr⟩ := h
              rw [← hm, ← hr]
              refine ⟨?_, hne⟩
              have hdig3 : r3.takeWhile asciiDigit ++ r3.dropWhile asciiDigit = r3 :=
                List.takeWhile_append_dropWhile _ _
              conv_lhs => rw [← hsp, ← hdig, hdw, ← hdig3]
              simp [currencyGroup0]
          · rw [if_neg hsep] at h
            simp only [Option.some_inj, Prod.mk.injEq] at h
            obtain ⟨hm, hr⟩ := h
            rw [← hm, ← hr]
            refine ⟨?_, hne⟩
            conv_lhs => rw [← hsp, ← hdig, hdw]
            simp [currencyGroup0]
    · rw [if_neg hc] at h; exact Option.noConfusion h

/-- re.findall with currency_pattern: scan left to right; on a match at
the current position, record it and continue at the match end (the skip
counter keeps the recursion structural on the subject). -/
def currencyMatchesAux : ℕ → List Char → List CurrencyMatch
  | _, [] => []
  | skip + 1, _ :: rest => currencyMatchesAux skip rest
  | 0, c :: rest =>
    match matchCurrencyAt (c :: rest) with
    | some (m, _) => m :: currencyMatchesAux ((currencyGroup0 m).length - 1) rest
    | none => currencyMatchesAux 0 rest

def currencyFindall (s : List Char) : List CurrencyMatch := currencyMatchesAux 0 s

/-- re.search with currency_pattern: the leftmost match. -/
def searchCurrency (s : List Char) : Option CurrencyMatch :=
  (currencyFindall s).head?

/-- re.sub with currency_pattern and a single-space replacement. -/
def currencySubAux : ℕ → List Char → List Char
  | _, [] => []
  | skip + 1, _ :: rest => currencySubAux skip rest
  | 0, c :: rest =>
    match matchCurrencyAt (c :: rest) with
    | some (m, _) => ' ' :: currencySubAux ((currencyGroup0 m).length - 1) rest
    | none => c :: currencySubAux 0 rest

def currencySub (s : List Char) : List Char := currencySubAux 0 s

/-- Numeric value of a digit string. -/
def natOfDigits (ds : List Char) : ℕ :=
  ds.foldl (fun acc c => acc * 10 + (c.toNat - 48)) 0

/-- Value of float(group(1).replace(',', '.')): the integer digits plus
the fractional digits scaled down (exact, modelled in the rationals). -/
def groupValue (intPart : List Char) (decPart : Option (Char × List Char)) : ℚ :=
  (natOfDigits intPart : ℚ) +
    match decPart with
    | none => 0
    | some (_, ds) => (natOfDigits ds : ℚ) / 10 ^ ds.length

def amountValue (m : AmountMatch) : ℚ := groupValue m.intPart m.decPart

def currencyValue (m : CurrencyMatch) : ℚ := groupValue m.intPart m.decPart

/-! ## ExpenseParser keyword tables (ExpenseParser.__init__) -/

structure CategoryInfo where
  primary : List String
  secondary : List String
  weight : ℚ

/-- self.category_keywords, in dict insertion order. -/
def category_keywords : List (String × CategoryInfo) :=
  [("food",
    ⟨["lunch", "dinner", "breakfast", "cafe", "restaurant",
      "eat", "ate", "eating", "pizza", "burger", "sushi", "coffee",
      "обед", "ужин", "завтрак", "кафе", "еда", "кофе", "meal"],
     ["snack", "food"], 2.0⟩),
   ("transport",
    ⟨["taxi", "uber", "yandex", "bus", "metro", "subway",
      "такси", "метро", "автобус", "яндекс", "ride"],
     ["fuel", "gas", "petrol", "parking", "бензин", "паркинг"], 2.0⟩),
   ("groceries",
    ⟨["grocery", "groceries", "market", "supermarket",
      "магазин", "продукты", "makro", "korzinka", "havas"],
     ["store", "shop"], 1.8⟩),
   ("entertainment",
    ⟨["movie", "cinema", "film", "game", "concert",
      "кино", "игра", "концерт"],
     ["party", "bar", "club", "theater"], 1.5⟩),
   ("shopping",
    ⟨["shopping", "clothes", "shoes", "bought",
      "одежда", "обувь", "купил"],
     ["buy", "shirt", "pants", "dress", "покупка"], 1.2⟩),
   ("bills",
    ⟨["electricity", "water", "internet", "phone", "rent",
      "электричество", "вода", "интернет", "телефон", "аренда"],
     ["utility", "bill", "коммуналка"], 1.8⟩),
   ("healthcare",
    ⟨["doctor", "hospital", "pharmacy", "medicine", "pills",
      "врач", "больница", "аптека", "лекарство"],
     ["clinic", "dental", "health"], 1.5⟩)]

def income_indicators_strong : List String :=
  ["received", "gift", "got paid", "earned", "salary", "income", "paycheck",
   "получил", "зарплата", "доход", "оплата получена"]

def income_indicators_weak : List String := ["got", "получил деньги"]

def expense_indicators_strong : List String :=
  ["spent", "paid", "bought", "purchased", "cost",
   "потратил", "заплатил", "купил", "стоило"]

def expense_indicators_weak : List String := ["for", "on"]

/-! ## ExpenseParser._detect_transaction_type -/

/-- income_score of _detect_transaction_type: 2 per strong-indicator
substring hit plus 0.5 per weak hit (the argument is already
lower-cased by the caller of these score helpers). -/
def income_score (text_lower : List Char) : ℚ :=
  2 * (income_indicators_strong.countP (fun kw => containsSub (lc kw) text_lower) : ℚ) +
    (income_indicators_weak.countP (fun kw => containsSub (lc kw) text_lower) : ℚ) * 0.5

def expense_score (text_lower : List Char) : ℚ :=
  2 * (expense_indicators_strong.countP (fun kw => containsSub (lc kw) text_lower) : ℚ) +
    (expense_indicators_weak.countP (fun kw => containsSub (lc kw) text_lower) : ℚ) * 0.5

/-- ExpenseParser._detect_transaction_type: returns (type, confidence). -/
def detect_transaction_type (text : List Char) : String × ℚ :=
  let tl := toLowerL text
  let inc := income_score tl
  let exp := expense_score tl
  if inc > 0 ∧ inc > exp then ("income", min 0.95 (0.6 + inc * 0.1))
  else if exp > 0 then ("expense", min 0.9 (0.7 + exp * 0.1))
  else ("expense", 0.6)

/-! ## ExpenseParser._extract_amount_improved -/

/-- The multiplier tokens checked with substring containment against the
lower-cased matched text (group 0). -/
def thousandTokens : List String := ["k", "к", "thousand", "тысяч", "т", "thous"]

/-- ExpenseParser._extract_amount_improved: currency symbols first, then
the general pattern; the thousands multiplier applies when any token
occurs in the matched text.  The source wraps float() in try/except
ValueError, but group 1 always parses (digits with at most one
separator), so that branch is dead and not modelled. -/
def extract_amount_improved (text : List Char) : Option ℚ × ℚ :=
  match searchCurrency text with
  | some m => (some (currencyValue m), 0.95)
  | none =>
    match searchAmount text with
    | some m =>
      let amount0 := amountValue m
      let amount :=
        if thousandTokens.any (fun x => containsSub (lc x) (toLowerL (amountGroup0 m)))
        then amount0 * 1000 else amount0
      (some amount, if amount ≥ 10 then 0.95 else 0.85)
    | none => (none, 0)

/-! ## ExpenseParser._detect_category_strict -/

/-- A user category as seen by the parser (duck-typed: only the name
attribute is read). -/
structure UserCategory where
  name : String
deriving DecidableEq, Repr

/-- Ordered association list standing for a Python dict: updating an
existing key keeps its position, a new key is appended. -/
def assocUpd {α : Type} (k : String) (v : α) : List (String × α) → List (String × α)
  | [] => [(k, v)]
  | (k', v') :: rest =>
    if k' = k then (k, v) :: rest else (k', v') :: assocUpd k v rest

def assocFind {α : Type} (k : String) : List (String × α) → Option α
  | [] => none
  | (k', v') :: rest => if k' = k then some v' else assocFind k rest

/-- Score and matched keywords of one built-in category: 1.0 x weight per
primary substring hit, 0.5 x weight per secondary hit; matched list
records primary hits verbatim and secondary hits with a star appended,
in table order. -/
def keywordScore (text : List Char) (info : CategoryInfo) : ℚ × List String :=
  let pm := info.primary.filter (fun kw => containsSub (lc kw) text)
  let sm := info.secondary.filter (fun kw => containsSub (lc kw) text)
  ((pm.length : ℚ) * 1.0 * info.weight + (sm.length : ℚ) * 0.5 * info.weight,
   pm ++ sm.map (fun kw => kw ++ "*"))

/-- First loop of _detect_category_strict: scores and
matched_keywords_map for the built-in table, inserting only categories
with positive score, in table order. -/
def builtinScores (text : List Char) :
    List (String × ℚ) × List (String × List String) :=
  category_keywords.foldl
    (fun acc cat =>
      let s := keywordScore text cat.2
      if s.1 > 0 then (acc.1 ++ [(cat.1, s.1)], acc.2 ++ [(cat.1, s.2)])
      else acc)
    ([], [])

/-- Second loop of _detect_category_strict over the user categories: an
exact full-name substring hit returns immediately with 0.95; otherwise
every word of the name longer than 3 characters that occurs in the text
forces the score 2.5 unless a score of at least 2.5 is already present,
overwriting the matched-keywords entry with just that word. -/
def userCatLoop (text : List Char) :
    List UserCategory → List (String × ℚ) → List (String × List String) →
      (String × ℚ × List String) ⊕ (List (String × ℚ) × List (String × List String))
  | [], scores, mmap => Sum.inr (scores, mmap)
  | c :: rest, scores, mmap =>
    let cn := toLowerL (lc c.name)
    if containsSub cn text then Sum.inl (c.name, 0.95, [String.mk cn])
    else
      let words := (pyWords cn).filter (fun w => w.length > 3)
      let upd := words.foldl
        (fun (acc : List (String × ℚ) × List (String × List String)) w =>
          if containsSub w text then
            match assocFind c.name acc.1 with
            | some v =>
              if v < 2.5 then
                (assocUpd c.name 2.5 acc.1, assocUpd c.name [String.mk w] acc.2)
              else acc
            | none =>
              (assocUpd c.name 2.5 acc.1, assocUpd c.name [String.mk w] acc.2)
          else acc)
        (scores, mmap)
      userCatLoop text rest upd.1 upd.2

/-- Python max(items, key) keeps the first maximum in iteration order:
later entries replace the current best only when strictly greater. -/
def assocMax : List (String × ℚ) → Option (String × ℚ)
  | [] => none
  | x :: rest => some (rest.foldl (fun best y => if y.2 > best.2 then y else best) x)

/-- The fixed raw-score to confidence thresholds of
_detect_category_strict. -/
def scoreToConfidence (raw : ℚ) : ℚ :=
  if raw ≥ 3.0 then 0.95
  else if raw ≥ 2.0 then 0.85
  else if raw ≥ 1.5 then 0.75
  else if raw ≥ 1.0 then 0.65
  else 0.45

/-- ExpenseParser._detect_category_strict: returns
(category, confidence, matched keywords).  The matched-keywords map has
an entry for every scored key, so the lookup of the best key is
total; the getD default is never reached. -/
def detect_category_strict (text : List Char) (user_categories : List UserCategory) :
    Option String × ℚ × List String :=
  let b := builtinScores text
  match userCatLoop text user_categories b.1 b.2 with
  | Sum.inl r => (some r.1, r.2.1, r.2.2)
  | Sum.inr (scores, mmap) =>
    match assocMax scores with
    | some best => (some best.1, scoreToConfidence best.2, (assocFind best.1 mmap).getD [])
    | none => (none, 0, [])

/-! ## ExpenseParser._extract_description -/

theorem matchCIPrefix_length (kw : List Char) :
    ∀ s u r, matchCIPrefix kw s = some (u, r) → u.length = kw.length := by
  induction kw with
  | nil =>
    intro s u r h
    simp only [matchCIPrefix, Option.some_inj, Prod.mk.injEq] at h
    rw [← h.1]
  | cons a kw ih =>
    intro s u r h
    cases s with
    | nil => exact Option.noConfusion h
    | cons c s' =>
      simp only [matchCIPrefix] at h
      split at h
      · obtain ⟨p, hp, he⟩ := Option.map_eq_some'.mp h
        obtain ⟨u', r'⟩ := p
        simp only [Prod.mk.injEq] at he
        rw [← he.1]
        simpa using ih s' u' r' hp
      · exact absurd h (by simp)

theorem dropWhileLengthLe {α : Type} (p : α → Bool) :
    ∀ l : List α, (l.dropWhile p).length ≤ l.length := by
  intro l
  induction l with
  | nil => exact le_refl _
  | cons a l ih =>
    rw [List.dropWhile]
    split
    · exact le_trans ih (by simp)
    · exact le_refl _

def wordBoundaryBefore : Option Char → Bool
  | none => true
  | some p => !wordChar p

def wordBoundaryAfter : List Char → Bool
  | [] => true
  | d :: _ => !wordChar d

/-- re.sub of a word-bounded keyword with the empty replacement,
IGNORECASE (the keyword is lower case): scan left to right; at each
position, when the previous character is not a word character, the
keyword matches case-insensitively and the following character is not a
word character, splice the occurrence out and continue after it (the
previous character for the continuation is the last consumed original
character, as the scan runs over positions of the original text);
otherwise keep the character and advance. -/
def removeBoundedAux (kw : List Char) : ℕ → Option Char → List Char → List Char
  | _, _, [] => []
  | skip + 1, _, c :: rest => removeBoundedAux kw skip (some c) rest
  | 0, prev, c :: rest =>
    match matchCIPrefix kw (c :: rest) with
    | some (_, r) =>
      if wordBoundaryBefore prev && wordBoundaryAfter r then
        removeBoundedAux kw (kw.length - 1) (some c) rest
      else c :: removeBoundedAux kw 0 (some c) rest
    | none => c :: removeBoundedAux kw 0 (some c) rest

/-- pyReSubBounded kw s: re.sub with the word-bounded keyword pattern.
An empty keyword never occurs in the tables; the guard only serves
totality of the skip-counter recursion. -/
def pyReSubBounded (kw : List Char) (s : List Char) : List Char :=
  if kw = [] then s else removeBoundedAux kw 0 none s

/-- re.sub of whitespace runs by a single space (the flag records that
the previous character belonged to a run already collapsed). -/
def collapseWSAux : Bool → List Char → List Char
  | _, [] => []
  | inRun, c :: rest =>
    if pySpace c then
      if inRun then collapseWSAux true rest
      else ' ' :: collapseWSAux true rest
    else c :: collapseWSAux false rest

def collapseWS (s : List Char) : List Char := collapseWSAux false s

/-- The connector alternatives of the leading-connector pattern, in
written order. -/
def connectorList : List String := ["for", "on", "at", "in"]

/-- re.sub of the anchored pattern stripping one leading connector word
followed by whitespace (IGNORECASE); alternatives are tried in order and
an alternative is abandoned when no whitespace follows it. -/
def tryConnector : List String → List Char → Option (List Char)
  | [], _ => none
  | conn :: others, s =>
    match matchCIPrefix (lc conn) s with
    | some (_, r) =>
      match r with
      | d :: _ =>
        if pySpace d then some (r.dropWhile pySpace) else tryConnector others s
      | [] => tryConnector others s
    | none => tryConnector others s

def stripLeadingConnector (s : List Char) : List Char :=
  (tryConnector connectorList s).getD s

/-- Python truthiness of the optional amount: None and 0.0 are falsy. -/
def pyTruthyAmount : Option ℚ → Bool
  | none => false
  | some a => a ≠ 0

/-- Python truthiness of the optional category name: None and the empty
string are falsy. -/
def pyTruthyStr : Option String → Bool
  | none => false
  | some s => !s.isEmpty

/-- All keywords stripped by the second phase of _extract_description:
for every category, primary then secondary, in table order (keywords of
at most 3 characters are skipped at use site). -/
def descriptionKeywords : List String :=
  (category_keywords.map (fun c => c.2.primary ++ c.2.secondary)).flatten

def expense_indicators_all : List String :=
  expense_indicators_strong ++ expense_indicators_weak

/-- ExpenseParser._extract_description.  The amount and currency
substitutions run only when the amount is truthy; then every built-in
category keyword longer than 3 characters and every expense indicator is
removed word-bounded; then whitespace is collapsed and stripped, one
leading connector word removed, edge punctuation stripped, the text
truncated to 97 characters plus an ellipsis when longer than 100, and
the placeholder returned when nothing remains. -/
def extract_description (text : List Char) (amount : Option ℚ) : List Char :=
  let t1 := if pyTruthyAmount amount then currencySub (amountSub text) else text
  let t2 := descriptionKeywords.foldl
    (fun t kw => if (lc kw).length ≤ 3 then t else pyReSubBounded (lc kw) t) t1
  let t3 := expense_indicators_all.foldl (fun t kw => pyReSubBounded (lc kw) t) t2
  let t4 := pyStrip (collapseWS t3)
  let t5 := stripLeadingConnector t4
  let t6 := pyStripChars (lc "!,.:;-") t5
  let t7 := if t6.length > 100 then t6.take 97 ++ lc "..." else t6
  if t7.isEmpty then lc "Transaction" else t7

/-- A word-bounded, case-insensitive occurrence of kw somewhere in s
(prev is the character before the scan position). -/
def hasBoundedOccAux (kw : List Char) : Option Char → List Char → Bool
  | _, [] => false
  | prev, c :: rest =>
    (match matchCIPrefix kw (c :: rest) with
     | some (_, r) => wordBoundaryBefore prev && wordBoundaryAfter r
     | none => false) || hasBoundedOccAux kw (some c) rest

def hasBoundedOcc (kw s : List Char) : Bool := hasBoundedOccAux kw none s

/-- The maximal word-character runs of a string, in order. -/
def wordRuns : List Char → List (List Char)
  | [] => []
  | c :: rest =>
    if wordChar c then (c :: rest.takeWhile wordChar) :: wordRuns (rest.dropWhile wordChar)
    else wordRuns rest
termination_by s => s.length
decreasing_by
  · have := dropWhileLengthLe wordChar rest; simp; omega
  · simp

/-- The previous-character state of the removal scan after stepping over
k characters. -/
def prevAfterK : ℕ → Option Char → List Char → Option Char
  | 0, prev, _ => prev
  | _ + 1, prev, [] => prev
  | k + 1, _, c :: rest => prevAfterK k (some c) rest

/-- The description pipeline up to (and excluding) the length-100
truncation and the empty-fallback. -/
def descriptionPreTruncation (text : List Char) (amount : Option ℚ) : List Char :=
  let t1 := if pyTruthyAmount amount then currencySub (amountSub text) else text
  let t2 := descriptionKeywords.foldl
    (fun t kw => if (lc kw).length ≤ 3 then t else pyReSubBounded (lc kw) t) t1
  let t3 := expense_indicators_all.foldl (fun t kw => pyReSubBounded (lc kw) t) t2
  let t4 := pyStrip (collapseWS t3)
  let t5 := stripLeadingConnector t4
  pyStripChars (lc "!,.:;-") t5

/-! ## ExpenseParser._calculate_confidence_fixed -/

/-- Round-half-to-even of a rational to an integer, the tie rule of
Python round. -/
def roundHalfEven (q : ℚ) : ℤ :=
  if q - ⌊q⌋ < 1/2 then ⌊q⌋
  else if 1/2 < q - ⌊q⌋ then ⌊q⌋ + 1
  else if Even ⌊q⌋ then ⌊q⌋ else ⌊q⌋ + 1

/-- round(x, 3), modelled exactly on the rationals. -/
def round3 (q : ℚ) : ℚ := (roundHalfEven (q * 1000) : ℚ) / 1000

/-- ExpenseParser._calculate_confidence_fixed.  The Python truthiness
tests (not amount, not category) treat a zero amount and an empty
category name like an absent one. -/
def calculate_confidence_fixed (amount : Option ℚ) (amount_confidence : ℚ)
    (category : Option String) (category_confidence : ℚ)
    (matched_keyword_count : ℕ) (text : List Char) : ℚ :=
  if !pyTruthyAmount amount && !pyTruthyStr category then 0.1
  else if !pyTruthyAmount amount then max 0.3 (category_confidence * 0.6)
  else if !pyTruthyStr category then max 0.3 (amount_confidence * 0.6)
  else
    let base := amount_confidence * 0.5 + category_confidence * 0.5
    let base1 := if matched_keyword_count ≥ 2 then min 0.98 (base * 1.1) else base
    let base2 :=
      if (pyWords text).length ≤ 4 ∧ matched_keyword_count ≥ 1
      then min 0.95 (base1 * 1.05) else base1
    round3 base2

/-! ## ExpenseParser._parse_with_rules, _parse_single, _parse_multiple, parse -/

/-- The dictionary returned by _parse_with_rules (the dead duplicate
assignment in the source builds the same dictionary twice; only the
returned one is modelled). -/
structure RuleParse where
  amount : Option ℚ
  category : Option String
  description : List Char
  confidence : ℚ
  matched_keywords : List String
  raw_text : List Char
  ptype : String
deriving DecidableEq, Repr

def parse_with_rules (text : List Char) (user_categories : List UserCategory) :
    RuleParse :=
  let text_lower := toLowerL text
  let a := extract_amount_improved text_lower
  let c := detect_category_strict text_lower user_categories
  let description := extract_description text a.1
  let confidence :=
    calculate_confidence_fixed a.1 a.2 c.1 c.2.1 c.2.2.length text_lower
  ⟨a.1, c.1, description, confidence, c.2.2, text, (detect_transaction_type text).1⟩

/-- The dictionary returned by _parse_single: the rule-based result with
the type fields set, the confidence multiplied by 0.9 when the type
confidence is below 0.7, and the clarification flag (the source only
inserts the key when the final confidence is below 0.5; absence is
modelled as false). -/
structure SingleParse where
  amount : Option ℚ
  category : Option String
  description : List Char
  confidence : ℚ
  matched_keywords : List String
  raw_text : List Char
  ptype : String
  type_confidence : ℚ
  needs_clarification : Bool
deriving DecidableEq, Repr

def parse_single (text : List Char) (user_categories : List UserCategory) :
    SingleParse :=
  let t := detect_transaction_type text
  let r := parse_with_rules text user_categories
  let conf := if t.2 < 0.7 then r.confidence * 0.9 else r.confidence
  ⟨r.amount, r.category, r.description, conf, r.matched_keywords, r.raw_text,
   t.1, t.2, conf < 0.5⟩

/-- ExpenseParser._has_multiple_expenses. -/
def has_multiple_expenses (text : List Char) : Bool :=
  decide ((amountFindall text).length + (currencyFindall text).length ≥ 2) &&
    containsSub [','] text

/-- One entry of the transactions list built by _parse_multiple. -/
structure MultiTxn where
  amount : ℚ
  category : Option String
  description : List Char
  confidence : ℚ
  ptype : String
deriving DecidableEq, Repr

inductive ParseOutput where
  | single (r : SingleParse)
  | multiple (transactions : List MultiTxn) (count : ℕ) (confidence : ℚ)
deriving DecidableEq, Repr

/-- ExpenseParser._parse_multiple: split on commas, strip each piece,
skip empty pieces, parse each piece with the single pipeline and keep it
only when its amount is truthy; with no kept transaction, fall back to a
single parse of the whole text; otherwise the multi result with the mean
confidence.  (The getD 0 after the truthiness test is never the
default.) -/
def parse_multiple (text : List Char) (user_categories : List UserCategory) :
    ParseOutput :=
  let parts := (splitOn ',' text).map pyStrip
  let transactions := parts.foldl
    (fun acc part =>
      if part.isEmpty then acc
      else
        let r := parse_single part user_categories
        if pyTruthyAmount r.amount then
          acc ++ [⟨r.amount.getD 0, r.category, r.description, r.confidence, r.ptype⟩]
        else acc)
    ([] : List MultiTxn)
  if transactions.isEmpty then ParseOutput.single (parse_single text user_categories)
  else
    ParseOutput.multiple transactions transactions.length
      (((transactions.map (fun t => t.confidence)).sum) / (transactions.length : ℚ))

/-- ExpenseParser.parse (the user id is never read by the parsing code
and is omitted). -/
def parse (text : List Char) (user_categories : List UserCategory) : ParseOutput :=
  let t := pyStrip text
  if containsSub [','] t && has_multiple_expenses t then
    parse_multiple t user_categories
  else ParseOutput.single (parse_single t user_categories)

/-- The collection the multi path actually performs, written as the
spec describes it (split on commas, trim, discard empty segments, run
the single pipeline) amended with the filter the code applies: a
segment is collected only when its parsed amount is truthy. -/
def collectSegments (text : List Char) (cats : List UserCategory) : List MultiTxn :=
  ((splitOn ',' text).map pyStrip).filterMap
    (fun part =>
      if part.isEmpty then none
      else
        let r := parse_single part cats
        if pyTruthyAmount r.amount then
          some ⟨r.amount.getD 0, r.category, r.description, r.confidence, r.ptype⟩
        else none)

/-! ## Handler layer (bot/handlers/private/expenses.py) and the category
service it calls.  State is the aiogram FSM context: no state is IDLE,
ExpenseForm.waiting_for_category with its stored data is
AWAITING_CATEGORY.  A commit records one
TransactionService.create_transaction invocation. -/

def MIN_CONFIDENCE_THRESHOLD : ℚ := 0.4

def AUTO_CREATE_THRESHOLD : ℚ := 0.75

/-- A row of the categories table. -/
structure DbCategory where
  id : ℕ
  user_id : ℕ
  name : String
  ctype : String
deriving DecidableEq, Repr

def lowerStr (s : String) : String := String.mk (toLowerL s.data)

/-- CategoryService.get_user_categories: all rows of the user, filtered
by type when one is given. -/
def get_user_categories (db : List DbCategory) (uid : ℕ) (ctype : Option String) :
    List DbCategory :=
  db.filter (fun c => c.user_id == uid &&
    (match ctype with | none => true | some t => c.ctype == t))

/-- CategoryService.get_category_by_name: ilike with no wildcard is
case-insensitive equality.  scalar_one_or_none assumes at most one
matching row (names unique per user and type); modelled as the first
match. -/
def get_category_by_name (db : List DbCategory) (uid : ℕ) (name : String)
    (ctype : Option String) : Option DbCategory :=
  (db.filter (fun c => c.user_id == uid && lowerStr c.name == lowerStr name &&
    (match ctype with | none => true | some t => c.ctype == t))).head?

/-- One entry of the need_category list of _handle_multiple_expenses,
also the shape stored in remaining_transactions. -/
structure PendingTxn where
  amount : Option ℚ
  description : List Char
  suggested_category : Option String
  confidence : ℚ
  index : ℕ
  ptype : String
deriving DecidableEq, Repr

inductive SessionState where
  | idle
  | awaitingCategory (amount : Option ℚ) (description : List Char)
      (transaction_type : String) (suggested_category : Option String)
      (remaining : List PendingTxn)
deriving DecidableEq, Repr

structure Commit where
  user_id : ℕ
  amount : Option ℚ
  category_id : ℕ
  transaction_type : String
  description : List Char
  payment_method : String
deriving DecidableEq, Repr

inductive FlowSignal where
  | helpMessage
  | expenseLogged
  | incomeLogged
  | noCategoriesWarning
  | categoryPrompt
deriving DecidableEq, Repr

structure FlowOutcome where
  commits : List Commit
  state : SessionState
  signal : FlowSignal
deriving DecidableEq, Repr

/-- ExpenseHandler._request_category_selection: store the pending data
and enter waiting_for_category; when the user has no category of the
requested type, warn and clear the state instead (an empty
remaining_transactions argument is not stored; modelled as the empty
queue). -/
def request_category_selection (db : List DbCategory) (uid : ℕ) (amount : Option ℚ)
    (description : List Char) (ttype : String) (suggested : Option String)
    (remaining : List PendingTxn) : SessionState × FlowSignal :=
  if (get_user_categories db uid (some ttype)).isEmpty then
    (SessionState.idle, FlowSignal.noCategoriesWarning)
  else
    (SessionState.awaitingCategory amount description ttype suggested remaining,
     FlowSignal.categoryPrompt)

/-- The category local of _handle_expense: the parsed category name, when
there is one, resolved against the user's expense categories. -/
def resolved_expense_category (db : List DbCategory) (uid : ℕ) (r : SingleParse) :
    Option DbCategory :=
  match r.category with
  | some name => get_category_by_name db uid name (some "expense")
  | none => none

/-- ExpenseHandler._handle_expense. -/
def handle_expense (db : List DbCategory) (uid : ℕ) (r : SingleParse) : FlowOutcome :=
  match resolved_expense_category db uid r with
  | some cat =>
    if r.confidence ≥ AUTO_CREATE_THRESHOLD then
      ⟨[⟨uid, r.amount, cat.id, "expense", r.description, "cash"⟩],
       SessionState.idle, FlowSignal.expenseLogged⟩
    else
      let p := request_category_selection db uid r.amount r.description "expense" r.category []
      ⟨[], p.1, p.2⟩
  | none =>
    let p := request_category_selection db uid r.amount r.description "expense" r.category []
    ⟨[], p.1, p.2⟩

/-- The category local of _handle_income before the single-category
auto-selection: the parsed name resolved against the income
categories. -/
def resolved_income_category (db : List DbCategory) (uid : ℕ) (r : SingleParse) :
    Option DbCategory :=
  match r.category with
  | some name => get_category_by_name db uid name (some "income")
  | none => none

/-- The category _handle_income commits to: the resolved one, or the
user's only income category when nothing resolved and exactly one
exists. -/
def income_commit_category (db : List DbCategory) (uid : ℕ) (r : SingleParse) :
    Option DbCategory :=
  match resolved_income_category db uid r, get_user_categories db uid (some "income") with
  | none, [c] => some c
  | c0, _ => c0

/-- ExpenseHandler._handle_income: no income category at all warns and
stays idle; otherwise the category resolved by name, or the single
income category when none resolved, is committed with no confidence
test; otherwise the selection prompt. -/
def handle_income (db : List DbCategory) (uid : ℕ) (r : SingleParse) : FlowOutcome :=
  if (get_user_categories db uid (some "income")).isEmpty then
    ⟨[], SessionState.idle, FlowSignal.noCategoriesWarning⟩
  else
    match income_commit_category db uid r with
    | some cat =>
      ⟨[⟨uid, r.amount, cat.id, "income", r.description, "bank"⟩],
       SessionState.idle, FlowSignal.incomeLogged⟩
    | none =>
      let p := request_category_selection db uid r.amount r.description "income" r.category []
      ⟨[], p.1, p.2⟩

/-- The single-result tail of ExpenseHandler.process_natural_input: the
low-confidence guard, then the routing on the parsed type. -/
def process_single_flow (db : List DbCategory) (uid : ℕ) (r : SingleParse) :
    FlowOutcome :=
  if r.confidence < MIN_CONFIDENCE_THRESHOLD then
    ⟨[], SessionState.idle, FlowSignal.helpMessage⟩
  else if r.ptype == "income" then handle_income db uid r
  else handle_expense db uid r

/-! ## ExpenseHandler._handle_multiple_expenses -/

/-- One entry of the auto_create list: category resolved and confidence
at or above the auto-create threshold. -/
structure AutoCreateEntry where
  amount : ℚ
  category : DbCategory
  description : List Char
  confidence : ℚ
  ptype : String
deriving DecidableEq, Repr

/-- The partition loop of _handle_multiple_expenses: each parsed
transaction goes to auto_create when its category name resolves in the
database (with its own type) and its confidence reaches the threshold,
otherwise to need_category with its original index. -/
def partition_multi (db : List DbCategory) (uid : ℕ) (txns : List MultiTxn) :
    List AutoCreateEntry × List PendingTxn :=
  (txns.enum).foldl
    (fun acc it =>
      let idx := it.1
      let txn := it.2
      let category :=
        match txn.category with
        | some name => get_category_by_name db uid name (some txn.ptype)
        | none => none
      match category with
      | some cat =>
        if txn.confidence ≥ AUTO_CREATE_THRESHOLD then
          (acc.1 ++ [⟨txn.amount, cat, txn.description, txn.confidence, txn.ptype⟩], acc.2)
        else
          (acc.1, acc.2 ++ [⟨some txn.amount, txn.description, txn.category,
                             txn.confidence, idx, txn.ptype⟩])
      | none =>
        (acc.1, acc.2 ++ [⟨some txn.amount, txn.description, txn.category,
                           txn.confidence, idx, txn.ptype⟩]))
    ([], [])

structure MultiCommitResult where
  attempted : List ℕ
  created_count : ℕ
  total_amount : ℚ
deriving DecidableEq, Repr

/-- The creation loop of _handle_multiple_expenses over auto_create:
every entry is attempted in order inside its own try block; a failing
create_transaction is caught and logged, so the loop continues, the
count is not incremented and the amount not added; for a successful
create the count always grows and the amount is added only for non
income entries.  (The budget-status query of the loop body is modelled
as never raising.)  ledgerFails i tells whether the i-th create call
raises. -/
def multi_commit_loop (ledgerFails : ℕ → Bool) (entries : List AutoCreateEntry) :
    MultiCommitResult :=
  (entries.enum).foldl
    (fun acc it =>
      let idx := it.1
      let e := it.2
      if ledgerFails idx then
        { acc with attempted := acc.attempted ++ [idx] }
      else
        { attempted := acc.attempted ++ [idx],
          created_count := acc.created_count + 1,
          total_amount :=
            acc.total_amount + (if e.ptype ≠ "income" then e.amount else 0) })
    ⟨[], 0, 0⟩

/-! ## category_selected (the waiting_for_category callback) -/

/-- The formal parameter names of
ExpenseHandler._request_category_selection (besides self). -/
def requestCategorySelectionParamNames : List String :=
  ["amount", "description", "type", "suggested_category", "remaining_transactions"]

/-- The keyword names used by the re-prompt call inside
category_selected. -/
def repromptCallKeywords : List String :=
  ["amount", "description", "transaction_type", "suggested_category",
   "remaining_transactions"]

/-- A Python keyword call binds only when every keyword names a formal
parameter; otherwise the call raises TypeError before the body runs. -/
def repromptCallValid : Bool :=
  repromptCallKeywords.all (fun k => requestCategorySelectionParamNames.contains k)

inductive CallbackSignal where
  | sessionExpired
  | categoryNotFound
  | savedOk
  | savedThenRepromptError
deriving DecidableEq, Repr

structure CallbackOutcome where
  commits : List Commit
  state : SessionState
  signal : CallbackSignal
deriving DecidableEq, Repr

/-- Category.filter_first(Category.id == category_id): lookup by id
only, with no user filter (the ownership test follows separately). -/
def filter_first_by_id (db : List DbCategory) (cid : ℕ) : Option DbCategory :=
  (db.filter (fun c => c.id == cid)).head?

/-- The category_selected callback, entered only in waiting_for_category
with the stored data (amount, description, transaction_type,
suggested_category, remaining_transactions).  A falsy stored amount
expires the session.  A missing or foreign category id answers
"Category not found" and returns with the state untouched.  Otherwise
the transaction is committed; with a non-empty queue the handler then
re-prompts through a keyword call using transaction_type=..., a keyword
that _request_category_selection does not declare, so Python raises
TypeError, the enclosing except answers a failure and clears the state;
with an empty queue the state is cleared normally.  (The guarded branch
models the call as intended had the keyword been valid; it is
unreachable because repromptCallValid is false.) -/
def category_selected (db : List DbCategory) (uid : ℕ) (amount : Option ℚ)
    (description : List Char) (transaction_type : String)
    (suggested : Option String) (remaining : List PendingTxn)
    (category_id : ℕ) : CallbackOutcome :=
  if !pyTruthyAmount amount then
    ⟨[], SessionState.idle, CallbackSignal.sessionExpired⟩
  else
    let keep := SessionState.awaitingCategory amount description transaction_type
      suggested remaining
    match filter_first_by_id db category_id with
    | none => ⟨[], keep, CallbackSignal.categoryNotFound⟩
    | some cat =>
      if cat.user_id ≠ uid then ⟨[], keep, CallbackSignal.categoryNotFound⟩
      else
        let commit : Commit :=
          ⟨uid, amount, cat.id, transaction_type, description,
           if transaction_type == "expense" then "cash" else "bank"⟩
        match remaining with
        | [] => ⟨[commit], SessionState.idle, CallbackSignal.savedOk⟩
        | next :: rest =>
          if repromptCallValid then
            let p := request_category_selection db uid next.amount next.description
              "expense" next.suggested_category rest
            ⟨[commit], p.1, CallbackSignal.savedOk⟩
          else
            ⟨[commit], SessionState.idle, CallbackSignal.savedThenRepromptError⟩

/-- N sequential category selections: a callback outside
waiting_for_category never reaches the handler (the aiogram state
filter), so selections in the idle state are ignored. -/
def drain_queue (db : List DbCategory) (uid : ℕ) :
    SessionState → List ℕ → List Commit × SessionState
  | st, [] => ([], st)
  | SessionState.idle, _ :: rest => drain_queue db uid SessionState.idle rest
  | SessionState.awaitingCategory a d t sg rem, cid :: rest =>
    let out := category_selected db uid a d t sg rem cid
    let tail := drain_queue db uid out.state rest
    (out.commits ++ tail.1, tail.2)

/-- Some strong direction indicator (income or expense) occurs in the
lower-cased text. -/
def hasStrongIndicator (text : List Char) : Bool :=
  income_indicators_strong.any (fun kw => containsSub (lc kw) (toLowerL text)) ||
  expense_indicators_strong.any (fun kw => containsSub (lc kw) (toLowerL text))

/-! # Theorems for the claims -/

theorem multi_commit_go (ledgerFails : ℕ → Bool) :
    ∀ (l : List AutoCreateEntry) (n : ℕ) (acc : MultiCommitResult),
      (List.enumFrom n l).foldl
        (fun acc it =>
          let idx := it.1
          let e := it.2
          if ledgerFails idx then
            { acc with attempted := acc.attempted ++ [idx] }
          else
            { attempted := acc.attempted ++ [idx],
              created_count := acc.created_count + 1,
              total_amount :=
                acc.total_amount + (if e.ptype ≠ "income" then e.amount else 0) })
        acc =
      ⟨acc.attempted ++ List.range' n l.length,
       acc.created_count + ((List.enumFrom n l).filter (fun it => !ledgerFails it.1)).length,
       acc.total_amount +
         (((List.enumFrom n l).filter
             (fun it => !ledgerFails it.1 && it.2.ptype != "income")).map
           (fun it => it.2.amount)).sum⟩ := by
  intro l
  induction l with
  | nil => intro n acc; simp [List.enumFrom, List.range']
  | cons e l ih =>
    intro n acc
    simp only [List.enumFrom, List.foldl_cons, List.filter_cons]
    rw [ih]
    by_cases hf : ledgerFails n
    · simp [hf, List.range']
    · by_cases hp : e.ptype = "income"
      · simp [hf, hp, List.range']
        omega
      · simp [hf, hp, List.range']
        exact ⟨by omega, by ring⟩

/-- C9: in multi-transaction mode a ledger commit failure is caught per
segment: every auto-create entry is attempted in its original order
whatever fails before it, the reported created count is exactly the
number of successful commits, and the committed expense total sums
exactly the amounts of the successful non-income entries. -/
theorem C9_ledger_failure_isolated (ledgerFails : ℕ → Bool)
    (entries : List AutoCreateEntry) :
    (multi_commit_loop ledgerFails entries).attempted = List.range entries.length ∧
    (multi_commit_loop ledgerFails entries).created_count =
      ((entries.enum).filter (fun it => !ledgerFails it.1)).length ∧
    (multi_commit_loop ledgerFails entries).total_amount =
      (((entries.enum).filter
          (fun it => !ledgerFails it.1 && it.2.ptype != "income")).map
        (fun it => it.2.amount)).sum := by
  have h := multi_commit_go ledgerFails entries 0 ⟨[], 0, 0⟩
  unfold multi_commit_loop
  have henum : entries.enum = List.enumFrom 0 entries := rfl
  rw [henum, h]
  exact ⟨by simp [List.range_eq_range'], by simp, by simp⟩

/-- C10: the type classifier confidence always lies in [0.6, 0.95]; it
is below the 0.7 discount threshold exactly when it is 0.6 or 0.65; 0.6
occurs exactly for the no-indicator default (both scores zero), 0.65
only for the weakest income signal (income score 0.5), and a text
containing any strong direction indicator never gets a confidence below
0.7. -/
theorem C10_type_confidence_range (text : List Char) :
    (0.6 ≤ (detect_transaction_type text).2 ∧ (detect_transaction_type text).2 ≤ 0.95) ∧
    ((detect_transaction_type text).2 < 0.7 ↔
      (detect_transaction_type text).2 = 0.6 ∨ (detect_transaction_type text).2 = 0.65) ∧
    ((detect_transaction_type text).2 = 0.6 ↔
      income_score (toLowerL text) = 0 ∧ expense_score (toLowerL text) = 0) ∧
    ((detect_transaction_type text).2 = 0.65 →
      income_score (toLowerL text) = 0.5) ∧
    (hasStrongIndicator text = true → 0.7 ≤ (detect_transaction_type text).2) := by
  set a := income_indicators_strong.countP (fun kw => containsSub (lc kw) (toLowerL text)) with ha
  set b := income_indicators_weak.countP (fun kw => containsSub (lc kw) (toLowerL text)) with hb
  set c := expense_indicators_strong.countP (fun kw => containsSub (lc kw) (toLowerL text)) with hc
  set d := expense_indicators_weak.countP (fun kw => containsSub (lc kw) (toLowerL text)) with hd
  have hab : income_score (toLowerL text) = 2 * (a : ℚ) + (b : ℚ) * 0.5 := rfl
  have hcd : expense_score (toLowerL text) = 2 * (c : ℚ) + (d : ℚ) * 0.5 := rfl
  have hstrong : hasStrongIndicator text = true → 1 ≤ a ∨ 1 ≤ c := by
    intro h
    simp only [hasStrongIndicator, Bool.or_eq_true, List.any_eq_true] at h
    rcases h with h | h
    · left; rw [ha]; exact List.countP_pos_iff.mpr h
    · right; rw [hc]; exact List.countP_pos_iff.mpr h
  have hdet : detect_transaction_type text =
      (if 2 * (a : ℚ) + (b : ℚ) * 0.5 > 0 ∧
          2 * (a : ℚ) + (b : ℚ) * 0.5 > 2 * (c : ℚ) + (d : ℚ) * 0.5 then
        ("income", min 0.95 (0.6 + (2 * (a : ℚ) + (b : ℚ) * 0.5) * 0.1))
      else if 2 * (c : ℚ) + (d : ℚ) * 0.5 > 0 then
        ("expense", min 0.9 (0.7 + (2 * (c : ℚ) + (d : ℚ) * 0.5) * 0.1))
      else ("expense", 0.6)) := rfl
  have hbq : (0 : ℚ) ≤ (b : ℚ) := Nat.cast_nonneg b
  have hdq : (0 : ℚ) ≤ (d : ℚ) := Nat.cast_nonneg d
  have haq : (0 : ℚ) ≤ (a : ℚ) := Nat.cast_nonneg a
  have hcq : (0 : ℚ) ≤ (c : ℚ) := Nat.cast_nonneg c
  rw [hdet, hab, hcd]
  by_cases h1 : (2 * (a : ℚ) + (b : ℚ) * 0.5 > 0) ∧
      (2 * (a : ℚ) + (b : ℚ) * 0.5 > 2 * (c : ℚ) + (d : ℚ) * 0.5)
  · rw [if_pos h1]
    obtain ⟨hpos, hgt⟩ := h1
    simp only
    have hn1 : 1 ≤ 4 * a + b := by
      by_contra h0
      push_neg at h0
      have ha0 : a = 0 := by omega
      have hb0 : b = 0 := by omega
      rw [ha0, hb0] at hpos
      norm_num at hpos
    set x := (0.6 : ℚ) + (2 * (a : ℚ) + (b : ℚ) * 0.5) * 0.1 with hxdef
    have hx : x = 0.6 + ((4 * a + b : ℕ) : ℚ) / 20 := by rw [hxdef]; push_cast; ring
    have hx65 : (0.65 : ℚ) ≤ x := by
      rw [hx]
      have : (1 : ℚ) ≤ ((4 * a + b : ℕ) : ℚ) := by exact_mod_cast hn1
      linarith
    have hmin_lb : (0.65 : ℚ) ≤ min 0.95 x := le_min (by norm_num) hx65
    have hmin_ub : min (0.95 : ℚ) x ≤ 0.95 := min_le_left _ _
    have hone : min (0.95:ℚ) x < 0.7 ↔ 4 * a + b = 1 := by
      constructor
      · intro hlt
        rcases min_lt_iff.mp hlt with h | h
        · norm_num at h
        · rw [hx] at h
          have h2 : ((4 * a + b : ℕ) : ℚ) < 2 := by linarith
          have h3 : 4 * a + b < 2 := by exact_mod_cast h2
          omega
      · intro he
        have hxe : x = 0.65 := by rw [hx, he]; norm_num
        rw [hxe]
        norm_num
    have heq65 : min (0.95:ℚ) x = 0.65 ↔ 4 * a + b = 1 := by
      constructor
      · intro he
        by_contra hne
        have h2 : 2 ≤ 4 * a + b := by omega
        have h3 : (0.7 : ℚ) ≤ x := by
          rw [hx]
          have : (2 : ℚ) ≤ ((4 * a + b : ℕ) : ℚ) := by exact_mod_cast h2
          linarith
        have h4 : (0.7 : ℚ) ≤ min 0.95 x := le_min (by norm_num) h3
        rw [he] at h4
        norm_num at h4
      · intro he
        have hxe : x = 0.65 := by rw [hx, he]; norm_num
        rw [hxe]
        norm_num
    refine ⟨⟨by linarith, hmin_ub⟩, ?_, ?_, ?_, ?_⟩
    · rw [hone]
      constructor
      · intro he; right; exact heq65.mpr he
      · rintro (he | he)
        · exfalso; rw [he] at hmin_lb; norm_num at hmin_lb
        · exact heq65.mp he
    · constructor
      · intro he; exfalso; rw [he] at hmin_lb; norm_num at hmin_lb
      · rintro ⟨hi, _⟩; exfalso; rw [hi] at hpos; norm_num at hpos
    · intro he
      have h1 := heq65.mp he
      have ha0 : a = 0 := by omega
      have hb1 : b = 1 := by omega
      rw [ha0, hb1]
      norm_num
    · intro hs
      have hinc2 : (2 : ℚ) ≤ 2 * (a : ℚ) + (b : ℚ) * 0.5 := by
        rcases hstrong hs with h | h
        · have : (1 : ℚ) ≤ (a : ℚ) := by exact_mod_cast h
          linarith
        · have : (1 : ℚ) ≤ (c : ℚ) := by exact_mod_cast h
          linarith
      have : (0.8 : ℚ) ≤ x := by rw [hxdef]; linarith
      exact le_min (by norm_num) (by linarith)
  · rw [if_neg h1]
    by_cases h2 : 2 * (c : ℚ) + (d : ℚ) * 0.5 > 0
    · rw [if_pos h2]
      simp only
      have hm1 : 1 ≤ 4 * c + d := by
        by_contra h0
        push_neg at h0
        have hc0 : c = 0 := by omega
        have hd0 : d = 0 := by omega
        rw [hc0, hd0] at h2
        norm_num at h2
      set y := (0.7 : ℚ) + (2 * (c : ℚ) + (d : ℚ) * 0.5) * 0.1 with hydef
      have hy : y = 0.7 + ((4 * c + d : ℕ) : ℚ) / 20 := by rw [hydef]; push_cast; ring
      have hy75 : (0.75 : ℚ) ≤ y := by
        rw [hy]
        have : (1 : ℚ) ≤ ((4 * c + d : ℕ) : ℚ) := by exact_mod_cast hm1
        linarith
      have hmin_lb : (0.75 : ℚ) ≤ min 0.9 y := le_min (by norm_num) hy75
      have hmin_ub : min (0.9 : ℚ) y ≤ 0.9 := min_le_left _ _
      refine ⟨⟨by linarith, by linarith⟩, ?_, ?_, ?_, ?_⟩
      · constructor
        · intro hlt; exfalso; linarith
        · rintro (he | he)
          · exfalso; rw [he] at hmin_lb; norm_num at hmin_lb
          · exfalso; rw [he] at hmin_lb; norm_num at hmin_lb
      · constructor
        · intro he; exfalso; rw [he] at hmin_lb; norm_num at hmin_lb
        · rintro ⟨_, he⟩; exfalso; rw [he] at h2; norm_num at h2
      · intro he; exfalso; rw [he] at hmin_lb; norm_num at hmin_lb
      · intro _; linarith
    · rw [if_neg h2]
      simp only
      have hexp0 : 2 * (c : ℚ) + (d : ℚ) * 0.5 = 0 := by
        push_neg at h2
        linarith
      have hinc0 : 2 * (a : ℚ) + (b : ℚ) * 0.5 = 0 := by
        by_contra hne
        have hpos : 0 < 2 * (a : ℚ) + (b : ℚ) * 0.5 := by
          rcases lt_or_eq_of_le (by linarith : (0:ℚ) ≤ 2 * (a : ℚ) + (b : ℚ) * 0.5) with h | h
          · exact h
          · exact absurd h.symm hne
        exact h1 ⟨hpos, by linarith [hexp0]⟩
      refine ⟨⟨by norm_num, by norm_num⟩, ?_, ?_, ?_, ?_⟩
      · constructor
        · intro _; left; norm_num
        · intro _; norm_num
      · constructor
        · intro _; exact ⟨hinc0, hexp0⟩
        · intro _; norm_num
      · intro he; exfalso; norm_num at he
      · intro hs
        exfalso
        rcases hstrong hs with h | h
        · have : (1 : ℚ) ≤ (a : ℚ) := by exact_mod_cast h
          linarith
        · have : (1 : ℚ) ≤ (c : ℚ) := by exact_mod_cast h
          linarith


/-- C1 counterexample: an income parse result with confidence 0.5 (in
[0.4, 0.75)) and a resolved category is committed immediately and the
state stays idle, where the claim requires it to be enqueued with a
transition to the awaiting-category state: the decision rule is not
applied uniformly to income results. -/
theorem C1_counterexample :
    MIN_CONFIDENCE_THRESHOLD ≤ (1/2 : ℚ) ∧ (1/2 : ℚ) < AUTO_CREATE_THRESHOLD ∧
    process_single_flow
        [⟨1, 1, "Salary", "income"⟩, ⟨2, 1, "Gifts", "income"⟩] 1
        ⟨some 100, some "salary", [], 1/2, [], [], "income", 0.95, false⟩ =
      ⟨[⟨1, some 100, 1, "income", [], "bank"⟩], SessionState.idle,
       FlowSignal.incomeLogged⟩ := by
  decide

/-- C1 amended: a single result with confidence below 0.4 is rejected
with a help message, uniformly for both types.  At or above 0.4, an
expense result is committed immediately exactly when its category
resolves and its confidence reaches 0.75, and otherwise enqueued in the
awaiting-category state (or, when the user has no expense category,
dropped with a warning and a cleared state); an income result ignores
the auto-create threshold: it is committed whenever a category resolves
by name or the user has exactly one income category, enqueued otherwise,
and dropped with a warning when the user has no income category. -/
theorem C1_single_result_decision (db : List DbCategory) (uid : ℕ) (r : SingleParse) :
    (r.confidence < MIN_CONFIDENCE_THRESHOLD →
      process_single_flow db uid r = ⟨[], SessionState.idle, FlowSignal.helpMessage⟩) ∧
    (MIN_CONFIDENCE_THRESHOLD ≤ r.confidence → r.ptype ≠ "income" →
      (∀ cat, resolved_expense_category db uid r = some cat →
        AUTO_CREATE_THRESHOLD ≤ r.confidence →
        process_single_flow db uid r =
          ⟨[⟨uid, r.amount, cat.id, "expense", r.description, "cash"⟩],
           SessionState.idle, FlowSignal.expenseLogged⟩) ∧
      ((resolved_expense_category db uid r = none ∨ r.confidence < AUTO_CREATE_THRESHOLD) →
        (if (get_user_categories db uid (some "expense")).isEmpty then
          process_single_flow db uid r =
            ⟨[], SessionState.idle, FlowSignal.noCategoriesWarning⟩
        else
          process_single_flow db uid r =
            ⟨[], SessionState.awaitingCategory r.amount r.description "expense" r.category [],
             FlowSignal.categoryPrompt⟩))) ∧
    (MIN_CONFIDENCE_THRESHOLD ≤ r.confidence → r.ptype = "income" →
      ((get_user_categories db uid (some "income")).isEmpty →
        process_single_flow db uid r =
          ⟨[], SessionState.idle, FlowSignal.noCategoriesWarning⟩) ∧
      (∀ cat, ¬(get_user_categories db uid (some "income")).isEmpty →
        income_commit_category db uid r = some cat →
        process_single_flow db uid r =
          ⟨[⟨uid, r.amount, cat.id, "income", r.description, "bank"⟩],
           SessionState.idle, FlowSignal.incomeLogged⟩) ∧
      (¬(get_user_categories db uid (some "income")).isEmpty →
        income_commit_category db uid r = none →
        process_single_flow db uid r =
          ⟨[], SessionState.awaitingCategory r.amount r.description "income" r.category [],
           FlowSignal.categoryPrompt⟩)) := by
  have hnotlt : MIN_CONFIDENCE_THRESHOLD ≤ r.confidence →
      ¬(r.confidence < MIN_CONFIDENCE_THRESHOLD) := fun h => not_lt.mpr h
  refine ⟨?_, ?_, ?_⟩
  · intro h
    simp only [process_single_flow, if_pos h]
  · intro hge hexp
    have hroute : process_single_flow db uid r = handle_expense db uid r := by
      simp only [process_single_flow, if_neg (hnotlt hge)]
      rw [if_neg]
      simpa using hexp
    constructor
    · intro cat hcat hauto
      rw [hroute]
      simp only [handle_expense, hcat]
      rw [if_pos hauto]
    · intro helse
      have hred : handle_expense db uid r =
          ⟨[], (request_category_selection db uid r.amount r.description "expense"
                  r.category []).1,
           (request_category_selection db uid r.amount r.description "expense"
                  r.category []).2⟩ := by
        rcases helse with hnone | hlt
        · simp only [handle_expense, hnone]
        · cases hcat : resolved_expense_category db uid r with
          | none => simp only [handle_expense, hcat]
          | some cat =>
            simp only [handle_expense, hcat]
            rw [if_neg (not_le.mpr hlt)]
      rw [hroute, hred]
      simp only [request_category_selection]
      split
      · rename_i hempty
        rfl
      · rename_i hempty
        rfl
  · intro hge hinc
    have hroute : process_single_flow db uid r = handle_income db uid r := by
      simp only [process_single_flow, if_neg (hnotlt hge)]
      rw [if_pos]
      simpa using hinc
    refine ⟨?_, ?_, ?_⟩
    · intro hempty
      rw [hroute]
      simp only [handle_income, if_pos hempty]
    · intro cat hne hcat
      rw [hroute]
      simp only [handle_income, hcat]
      rw [if_neg hne]
    · intro hne hnone
      rw [hroute]
      simp only [handle_income, hnone]
      rw [if_neg hne]
      simp only [request_category_selection]
      split
      · rename_i hempty
        exact absurd hempty hne
      · rename_i hempty
        rfl

/-- Witness for C1 at concrete inputs: an expense result with confidence
0.8 and a resolving category is committed at once; an income result with
no income category configured is dropped with a warning. -/
theorem C1_single_result_decision_witness :
    (process_single_flow [⟨3, 1, "Food", "expense"⟩] 1
        ⟨some 100, some "food", [], 0.8, [], [], "expense", 0.9, false⟩ =
      ⟨[⟨1, some 100, 3, "expense", [], "cash"⟩], SessionState.idle,
       FlowSignal.expenseLogged⟩) ∧
    (process_single_flow [⟨3, 1, "Food", "expense"⟩] 1
        ⟨some 100, none, [], 0.8, [], [], "income", 0.9, false⟩ =
      ⟨[], SessionState.idle, FlowSignal.noCategoriesWarning⟩) :=
  ⟨((C1_single_result_decision [⟨3, 1, "Food", "expense"⟩] 1
      ⟨some 100, some "food", [], 0.8, [], [], "expense", 0.9, false⟩).2.1
      (by decide) (by decide)).1 ⟨3, 1, "Food", "expense"⟩ (by decide) (by decide),
   ((C1_single_result_decision [⟨3, 1, "Food", "expense"⟩] 1
      ⟨some 100, none, [], 0.8, [], [], "income", 0.9, false⟩).2.2
      (by decide) (by decide)).1 (by decide)⟩

theorem amount_confidence_bounds (text : List Char) :
    0 ≤ (extract_amount_improved text).2 ∧ (extract_amount_improved text).2 ≤ 0.95 := by
  unfold extract_amount_improved
  cases searchCurrency text with
  | some m => exact ⟨by norm_num, by norm_num⟩
  | none =>
    cases searchAmount text with
    | some m =>
      simp only
      split_ifs <;> exact ⟨by norm_num, by norm_num⟩
    | none => exact ⟨by norm_num, by norm_num⟩

theorem scoreToConfidence_bounds (raw : ℚ) :
    0 ≤ scoreToConfidence raw ∧ scoreToConfidence raw ≤ 0.95 := by
  unfold scoreToConfidence
  split_ifs <;> norm_num

theorem userCatLoop_inl_conf (text : List Char) :
    ∀ (cats : List UserCategory) (scores : List (String × ℚ))
      (mmap : List (String × List String)) (r : String × ℚ × List String),
      userCatLoop text cats scores mmap = Sum.inl r → r.2.1 = 0.95 := by
  intro cats
  induction cats with
  | nil => intro scores mmap r h; exact Sum.noConfusion h
  | cons c rest ih =>
    intro scores mmap r h
    rw [userCatLoop] at h
    split_ifs at h with hfull
    · cases h; rfl
    · exact ih _ _ r h

theorem category_confidence_bounds (text : List Char) (cats : List UserCategory) :
    0 ≤ (detect_category_strict text cats).2.1 ∧
    (detect_category_strict text cats).2.1 ≤ 0.95 := by
  simp only [detect_category_strict]
  cases h : userCatLoop text cats (builtinScores text).1 (builtinScores text).2 with
  | inl r =>
    dsimp only
    have := userCatLoop_inl_conf text cats _ _ r h
    rw [this]
    exact ⟨by norm_num, by norm_num⟩
  | inr p =>
    obtain ⟨scores, mmap⟩ := p
    dsimp only
    cases assocMax scores with
    | some best => exact scoreToConfidence_bounds best.2
    | none => exact ⟨by norm_num, by norm_num⟩

theorem roundHalfEven_bounds (q : ℚ) :
    (q - 1 : ℚ) ≤ (roundHalfEven q : ℚ) ∧ (roundHalfEven q : ℚ) ≤ q + 1 := by
  unfold roundHalfEven
  have h1 := Int.floor_le q
  have h2 := Int.lt_floor_add_one q
  split_ifs <;> constructor <;> push_cast <;> linarith

theorem roundHalfEven_nonneg (q : ℚ) (h : 0 ≤ q) : 0 ≤ roundHalfEven q := by
  unfold roundHalfEven
  have h1 : 0 ≤ ⌊q⌋ := Int.floor_nonneg.mpr h
  split_ifs <;> omega

theorem round3_bounds (x : ℚ) (h0 : 0 ≤ x) (h1 : x ≤ 0.98) :
    0 ≤ round3 x ∧ round3 x ≤ 0.981 := by
  unfold round3
  constructor
  · have := roundHalfEven_nonneg (x * 1000) (by linarith)
    positivity
  · have := (roundHalfEven_bounds (x * 1000)).2
    have hle : (roundHalfEven (x * 1000) : ℚ) ≤ 981 := by linarith
    linarith

theorem calculate_confidence_bounds (amount : Option ℚ) (ac : ℚ)
    (category : Option String) (cc : ℚ) (k : ℕ) (text : List Char)
    (hac : 0 ≤ ac ∧ ac ≤ 0.95) (hcc : 0 ≤ cc ∧ cc ≤ 0.95) :
    0 ≤ calculate_confidence_fixed amount ac category cc k text ∧
    calculate_confidence_fixed amount ac category cc k text ≤ 1 := by
  obtain ⟨hac0, hac1⟩ := hac
  obtain ⟨hcc0, hcc1⟩ := hcc
  unfold calculate_confidence_fixed
  by_cases hA : (!pyTruthyAmount amount && !pyTruthyStr category) = true
  · rw [if_pos hA]
    exact ⟨by norm_num, by norm_num⟩
  · rw [if_neg hA]
    by_cases hB : (!pyTruthyAmount amount) = true
    · rw [if_pos hB]
      exact ⟨le_max_of_le_left (by norm_num), max_le (by norm_num) (by nlinarith)⟩
    · rw [if_neg hB]
      by_cases hC : (!pyTruthyStr category) = true
      · rw [if_pos hC]
        exact ⟨le_max_of_le_left (by norm_num), max_le (by norm_num) (by nlinarith)⟩
      · rw [if_neg hC]
        dsimp only
        set base := ac * 0.5 + cc * 0.5 with hbasedef
        have hb0 : 0 ≤ base := by rw [hbasedef]; nlinarith
        have hb1 : base ≤ 0.95 := by rw [hbasedef]; nlinarith
        have hM1 : 0 ≤ min (0.98:ℚ) (base * 1.1) ∧ min (0.98:ℚ) (base * 1.1) ≤ 0.98 :=
          ⟨le_min (by norm_num) (by nlinarith), min_le_left _ _⟩
        have hM2 : 0 ≤ min (0.95:ℚ) (min (0.98:ℚ) (base * 1.1) * 1.05) ∧
            min (0.95:ℚ) (min (0.98:ℚ) (base * 1.1) * 1.05) ≤ 0.98 :=
          ⟨le_min (by norm_num) (by nlinarith [hM1.1]),
           le_trans (min_le_left _ _) (by norm_num)⟩
        have hM3 : 0 ≤ min (0.95:ℚ) (base * 1.05) ∧ min (0.95:ℚ) (base * 1.05) ≤ 0.98 :=
          ⟨le_min (by norm_num) (by nlinarith),
           le_trans (min_le_left _ _) (by norm_num)⟩
        have hM4 : 0 ≤ base ∧ base ≤ 0.98 := ⟨hb0, by linarith⟩
        split_ifs
        all_goals
          first
          | exact ⟨(round3_bounds _ hM2.1 hM2.2).1,
              le_trans (round3_bounds _ hM2.1 hM2.2).2 (by norm_num)⟩
          | exact ⟨(round3_bounds _ hM1.1 hM1.2).1,
              le_trans (round3_bounds _ hM1.1 hM1.2).2 (by norm_num)⟩
          | exact ⟨(round3_bounds _ hM3.1 hM3.2).1,
              le_trans (round3_bounds _ hM3.1 hM3.2).2 (by norm_num)⟩
          | exact ⟨(round3_bounds _ hM4.1 hM4.2).1,
              le_trans (round3_bounds _ hM4.1 hM4.2).2 (by norm_num)⟩

/-- C2 counterexample: for the text "zzz" neither an amount nor a
category is detected, yet the final confidence of the returned result is
0.09, not 0.1: the scorer returns 0.1 but the orchestrator multiplies it
by 0.9 because the type confidence is the 0.6 default. -/
theorem C2_counterexample :
    (parse_with_rules (lc "zzz") []).amount = none ∧
    (parse_with_rules (lc "zzz") []).category = none ∧
    (parse_single (lc "zzz") []).confidence = 0.09 ∧ (0.09 : ℚ) ≠ 0.1 := by
  decide

/-- C2 amended: the final confidence of a single parse is always in
[0, 1]; when neither an amount nor a category is detected, the scorer
yields exactly 0.1 and the returned confidence is 0.1, or 0.09 when the
type-ambiguity discount (type confidence below 0.7) applies. -/
theorem C2_confidence_bounds_and_floor (text : List Char) (cats : List UserCategory) :
    (0 ≤ (parse_single text cats).confidence ∧ (parse_single text cats).confidence ≤ 1) ∧
    ((parse_with_rules text cats).amount = none →
     (parse_with_rules text cats).category = none →
      (parse_single text cats).confidence =
        (if (detect_transaction_type text).2 < 0.7 then 0.09 else 0.1)) := by
  constructor
  · have hr : (parse_single text cats).confidence =
        (if (detect_transaction_type text).2 < 0.7
         then (parse_with_rules text cats).confidence * 0.9
         else (parse_with_rules text cats).confidence) := rfl
    have hrules : (parse_with_rules text cats).confidence =
        calculate_confidence_fixed (extract_amount_improved (toLowerL text)).1
          (extract_amount_improved (toLowerL text)).2
          (detect_category_strict (toLowerL text) cats).1
          (detect_category_strict (toLowerL text) cats).2.1
          (detect_category_strict (toLowerL text) cats).2.2.length (toLowerL text) := rfl
    have hb := calculate_confidence_bounds
      (extract_amount_improved (toLowerL text)).1
      (extract_amount_improved (toLowerL text)).2
      (detect_category_strict (toLowerL text) cats).1
      (detect_category_strict (toLowerL text) cats).2.1
      (detect_category_strict (toLowerL text) cats).2.2.length (toLowerL text)
      (amount_confidence_bounds _) (category_confidence_bounds _ _)
    rw [hr, hrules]
    split_ifs
    · constructor
      · nlinarith [hb.1]
      · nlinarith [hb.2]
    · exact hb
  · intro hamount hcat
    have hr : (parse_single text cats).confidence =
        (if (detect_transaction_type text).2 < 0.7
         then (parse_with_rules text cats).confidence * 0.9
         else (parse_with_rules text cats).confidence) := rfl
    have hzero : (parse_with_rules text cats).confidence = 0.1 := by
      have ham : (extract_amount_improved (toLowerL text)).1 = none := hamount
      have hca : (detect_category_strict (toLowerL text) cats).1 = none := hcat
      show calculate_confidence_fixed (extract_amount_improved (toLowerL text)).1
          (extract_amount_improved (toLowerL text)).2
          (detect_category_strict (toLowerL text) cats).1
          (detect_category_strict (toLowerL text) cats).2.1
          (detect_category_strict (toLowerL text) cats).2.2.length (toLowerL text) = 0.1
      rw [ham, hca]
      unfold calculate_confidence_fixed
      simp [pyTruthyAmount, pyTruthyStr]
    rw [hr, hzero]
    split_ifs
    · norm_num
    · rfl

/-- Witness for C2 at the concrete text "zzz". -/
theorem C2_confidence_bounds_and_floor_witness :
    (0 ≤ (parse_single (lc "zzz") []).confidence ∧
      (parse_single (lc "zzz") []).confidence ≤ 1) ∧
    (parse_single (lc "zzz") []).confidence =
      (if (detect_transaction_type (lc "zzz")).2 < 0.7 then 0.09 else 0.1) :=
  ⟨(C2_confidence_bounds_and_floor (lc "zzz") []).1,
   (C2_confidence_bounds_and_floor (lc "zzz") []).2 (by decide) (by decide)⟩

/-- C8 counterexample: submitting a category id owned by another user
answers "Category not found" but does NOT clear the session state — the
flow stays in the awaiting-category state with its pending data, where
the claim requires the state to be cleared. -/
theorem C8_counterexample :
    (category_selected [⟨1, 1, "Food", "expense"⟩, ⟨5, 2, "Other", "expense"⟩] 1
        (some 50) [] "expense" none [] 5).signal = CallbackSignal.categoryNotFound ∧
    (category_selected [⟨1, 1, "Food", "expense"⟩, ⟨5, 2, "Other", "expense"⟩] 1
        (some 50) [] "expense" none [] 5).state ≠ SessionState.idle := by
  decide

/-- C8 amended: in the awaiting-category state, a submitted category id
that does not exist or belongs to another user signals "category not
found" and returns with the session state left exactly as it was
(pending transaction and queue retained, so the user can pick again);
the state is not cleared on this path and nothing is committed. -/
theorem C8_invalid_category_keeps_state (db : List DbCategory) (uid : ℕ)
    (amount : Option ℚ) (description : List Char) (transaction_type : String)
    (suggested : Option String) (remaining : List PendingTxn) (cid : ℕ)
    (hamount : pyTruthyAmount amount = true)
    (hbad : filter_first_by_id db cid = none ∨
      ∃ cat, filter_first_by_id db cid = some cat ∧ cat.user_id ≠ uid) :
    category_selected db uid amount description transaction_type suggested remaining cid =
      ⟨[], SessionState.awaitingCategory amount description transaction_type
            suggested remaining,
       CallbackSignal.categoryNotFound⟩ := by
  unfold category_selected
  rw [hamount]
  simp only [Bool.not_true, Bool.false_eq_true, if_false]
  rcases hbad with hnone | ⟨cat, hcat, hforeign⟩
  · rw [hnone]
  · rw [hcat]
    simp only
    rw [if_pos hforeign]

/-- Witness for C8 at a concrete foreign category id. -/
theorem C8_invalid_category_keeps_state_witness :
    category_selected [⟨1, 1, "Food", "expense"⟩, ⟨5, 2, "Other", "expense"⟩] 1
        (some 50) [] "expense" none [] 5 =
      ⟨[], SessionState.awaitingCategory (some 50) [] "expense" none [],
       CallbackSignal.categoryNotFound⟩ :=
  C8_invalid_category_keeps_state _ _ _ _ _ _ _ _ (by decide)
    (Or.inr ⟨⟨5, 2, "Other", "expense"⟩, by decide, by decide⟩)

/-- C3 (code bug): with a queue of two pending transactions, two
sequential category selections commit only the first one.  The re-prompt
call inside category_selected passes the keyword transaction_type to
_request_category_selection, whose parameter is named type, so the
keyword call raises TypeError; the surrounding except clears the state
and the rest of the queue is discarded, leaving a single commit where
the claim (and the code's own intent) requires both. -/
theorem C3_reprompt_type_error_eval :
    repromptCallValid = false ∧
    drain_queue [⟨1, 1, "Food", "expense"⟩, ⟨2, 1, "Transport", "expense"⟩] 1
        (SessionState.awaitingCategory (some 50) [] "expense" none
          [⟨some 20, [], none, 1/2, 1, "expense"⟩])
        [1, 2] =
      ([⟨1, some 50, 1, "expense", [], "cash"⟩], SessionState.idle) := by
  decide

/-- Witness for C10 at concrete texts: the strong indicator in "spent"
forces a confidence of at least 0.7. -/
theorem C10_type_confidence_range_witness :
    hasStrongIndicator (lc "spent") = true ∧
    0.7 ≤ (detect_transaction_type (lc "spent")).2 :=
  ⟨by decide, (C10_type_confidence_range (lc "spent")).2.2.2.2 (by decide)⟩

/-! ## C7: sign of extracted amounts -/

theorem groupValue_nonneg (ip : List Char) (dp : Option (Char × List Char)) :
    0 ≤ groupValue ip dp := by
  unfold groupValue
  cases dp with
  | none => positivity
  | some p => obtain ⟨sep, ds⟩ := p; positivity

theorem extract_amount_nonneg (text : List Char) :
    ∀ a, (extract_amount_improved text).1 = some a → 0 ≤ a := by
  intro a h
  unfold extract_amount_improved at h
  cases hc : searchCurrency text with
  | some m =>
    rw [hc] at h
    simp only [Option.some_inj] at h
    rw [← h]
    exact groupValue_nonneg _ _
  | none =>
    rw [hc] at h
    cases ha : searchAmount text with
    | some m =>
      rw [ha] at h
      simp only [Option.some_inj] at h
      rw [← h]
      split_ifs
      · have := groupValue_nonneg m.intPart m.decPart
        unfold amountValue
        positivity
      · exact groupValue_nonneg _ _
    | none => rw [ha] at h; exact Option.noConfusion h

theorem parse_with_rules_amount_nonneg (text : List Char) (cats : List UserCategory) :
    ∀ a, (parse_with_rules text cats).amount = some a → 0 ≤ a := by
  intro a h
  exact extract_amount_nonneg (toLowerL text) a h

theorem parse_multi_amounts_pos (text : List Char) (cats : List UserCategory) :
    ∀ ts n c, parse text cats = ParseOutput.multiple ts n c →
      ∀ t ∈ ts, 0 < t.amount := by
  intro ts n c h t ht
  simp only [parse] at h
  split_ifs at h with hmulti
  simp only [parse_multiple] at h
  set parts := (splitOn ',' (pyStrip text)).map pyStrip with hparts
  split_ifs at h with hempty
  simp only [ParseOutput.multiple.injEq] at h
  obtain ⟨hts, _, _⟩ := h
  rw [← hts] at ht
  clear hts hempty
  have hinv : ∀ (ps : List (List Char)) (acc : List MultiTxn),
      (∀ x ∈ acc, 0 < x.amount) →
      ∀ x ∈ ps.foldl
        (fun acc part =>
          if part.isEmpty then acc
          else
            if pyTruthyAmount (parse_single part cats).amount then
              acc ++ [⟨(parse_single part cats).amount.getD 0,
                       (parse_single part cats).category,
                       (parse_single part cats).description,
                       (parse_single part cats).confidence,
                       (parse_single part cats).ptype⟩]
            else acc)
        acc, 0 < x.amount := by
    intro ps
    induction ps with
    | nil => intro acc hacc x hx; exact hacc x hx
    | cons p ps ih =>
      intro acc hacc x hx
      rw [List.foldl_cons] at hx
      refine ih _ ?_ x hx
      by_cases hpe : p.isEmpty = true
      · rw [if_pos hpe]; exact hacc
      · rw [if_neg hpe]
        by_cases htr : pyTruthyAmount (parse_single p cats).amount = true
        · rw [if_pos htr]
          intro y hy
          rw [List.mem_append] at hy
          rcases hy with hy | hy
          · exact hacc y hy
          · rw [List.mem_singleton] at hy
            subst hy
            dsimp only
            cases hra : (parse_single p cats).amount with
            | none =>
              rw [hra] at htr
              simp [pyTruthyAmount] at htr
            | some av =>
              have hnz : av ≠ 0 := by
                rw [hra] at htr
                simpa [pyTruthyAmount] using htr
              have hnn : 0 ≤ av := parse_with_rules_amount_nonneg p cats av hra
              simp only [Option.getD_some]
              exact lt_of_le_of_ne hnn (Ne.symm hnz)
        · rw [if_neg htr]; exact hacc
  exact hinv parts [] (by intro x hx; exact absurd hx (List.not_mem_nil x)) t ht

/-! ## C4: the multi-transaction collection -/

theorem parse_multiple_foldl_eq (cats : List UserCategory) :
    ∀ (ps : List (List Char)) (acc : List MultiTxn),
      ps.foldl
        (fun acc part =>
          if part.isEmpty then acc
          else
            if pyTruthyAmount (parse_single part cats).amount then
              acc ++ [⟨(parse_single part cats).amount.getD 0,
                       (parse_single part cats).category,
                       (parse_single part cats).description,
                       (parse_single part cats).confidence,
                       (parse_single part cats).ptype⟩]
            else acc)
        acc
      = acc ++ ps.filterMap
          (fun part =>
            if part.isEmpty then none
            else
              if pyTruthyAmount (parse_single part cats).amount then
                some ⟨(parse_single part cats).amount.getD 0,
                      (parse_single part cats).category,
                      (parse_single part cats).description,
                      (parse_single part cats).confidence,
                      (parse_single part cats).ptype⟩
              else none) := by
  intro ps
  induction ps with
  | nil => intro acc; simp
  | cons p ps ih =>
    intro acc
    rw [List.foldl_cons, List.filterMap_cons]
    by_cases hpe : p.isEmpty = true
    · rw [if_pos hpe, if_pos hpe, ih]
    · rw [if_neg hpe, if_neg hpe]
      by_cases htr : pyTruthyAmount (parse_single p cats).amount = true
      · rw [if_pos htr, if_pos htr, ih]
        simp
      · rw [if_neg htr, if_neg htr, ih]

/-- C4 counterexample: the input has three non-empty comma segments but
the returned multi result collects only the two whose amount parses;
the third segment (lunch) is dropped, and the mean runs over the two
collected confidences only, refuting "collects every one of those
segment results". -/
theorem C4_counterexample :
    containsSub [','] (lc "50k taxi, 20k coffee, lunch") = true ∧
    has_multiple_expenses (lc "50k taxi, 20k coffee, lunch") = true ∧
    (((splitOn ',' (lc "50k taxi, 20k coffee, lunch")).map pyStrip).filter
        (fun p => !p.isEmpty)).length = 3 ∧
    parse (lc "50k taxi, 20k coffee, lunch") [] =
      ParseOutput.multiple
        [⟨50000, some "transport", lc "Transaction", 1701/2000, "expense"⟩,
         ⟨20000, some "food", lc "Transaction", 1701/2000, "expense"⟩] 2 (1701/2000) := by
  decide

/-- C4 (amended): on the multi path (comma present and at least two
numeric/currency tokens) the parser splits on commas, trims, and
collects exactly the non-empty segments whose parsed amount is truthy;
the result is the multi output with the arithmetic mean of the collected
confidences, falling back to a single parse of the whole text when no
segment is collected. -/
theorem C4_multi_collection (text : List Char) (cats : List UserCategory)
    (h : (containsSub [','] (pyStrip text) &&
           has_multiple_expenses (pyStrip text)) = true) :
    parse text cats =
      (if (collectSegments (pyStrip text) cats).isEmpty then
         ParseOutput.single (parse_single (pyStrip text) cats)
       else
         ParseOutput.multiple (collectSegments (pyStrip text) cats)
           (collectSegments (pyStrip text) cats).length
           (((collectSegments (pyStrip text) cats).map (fun t => t.confidence)).sum /
             ((collectSegments (pyStrip text) cats).length : ℚ))) := by
  simp only [parse]
  rw [if_pos h]
  simp only [parse_multiple]
  rw [parse_multiple_foldl_eq]
  rfl

/-- C4 witness: the amended collection rule applied to a concrete
three-segment input. -/
theorem C4_multi_collection_witness :
    (containsSub [','] (pyStrip (lc "50k taxi, 20k eats, lunch")) &&
       has_multiple_expenses (pyStrip (lc "50k taxi, 20k eats, lunch"))) = true ∧
    parse (lc "50k taxi, 20k eats, lunch") [] =
      (if (collectSegments (pyStrip (lc "50k taxi, 20k eats, lunch")) []).isEmpty then
         ParseOutput.single (parse_single (pyStrip (lc "50k taxi, 20k eats, lunch")) [])
       else
         ParseOutput.multiple (collectSegments (pyStrip (lc "50k taxi, 20k eats, lunch")) [])
           (collectSegments (pyStrip (lc "50k taxi, 20k eats, lunch")) []).length
           (((collectSegments (pyStrip (lc "50k taxi, 20k eats, lunch")) []).map
               (fun t => t.confidence)).sum /
             ((collectSegments (pyStrip (lc "50k taxi, 20k eats, lunch")) []).length : ℚ))) :=
  ⟨by decide, C4_multi_collection (lc "50k taxi, 20k eats, lunch") [] (by decide)⟩

/-- C7 counterexample: the parser accepts a zero amount.  On the text $0
the currency pattern matches and the rule-based result carries
amount = 0, which is not strictly positive, refuting the claimed
invariant for single results. -/
theorem C7_counterexample :
    (parse_with_rules (lc "$0") []).amount = some 0 ∧ ¬(0 < (0 : ℚ)) := by decide

/-- C7 (amended): a present amount of a rule-based (single) parse result
is non-negative but can be zero; the transactions collected by a
multiple parse, which pass the truthiness filter, all carry a strictly
positive amount. -/
theorem C7_amount_sign_invariant (text : List Char) (cats : List UserCategory) :
    (∀ a, (parse_with_rules text cats).amount = some a → 0 ≤ a) ∧
    (∀ ts n c, parse text cats = ParseOutput.multiple ts n c →
      ∀ t ∈ ts, 0 < t.amount) :=
  ⟨parse_with_rules_amount_nonneg text cats, parse_multi_amounts_pos text cats⟩

/-- C7 witness: both parts of the amended invariant applied at concrete
inputs. -/
theorem C7_amount_sign_invariant_witness :
    ((parse_with_rules (lc "5 x") []).amount = some 5 ∧ (0:ℚ) ≤ 5) ∧
    (0:ℚ) < 45000 ∧ (0:ℚ) < 15000 :=
  ⟨⟨by decide, (C7_amount_sign_invariant (lc "5 x") []).1 5 (by decide)⟩,
   (C7_amount_sign_invariant (lc "45k taxi, 15k snacks") []).2
     [⟨45000, some "transport", lc "Transaction", 0.8505, "expense"⟩,
      ⟨15000, some "food", lc "snacks", 0.756, "expense"⟩] 2 (3213/4000)
     (by decide) ⟨45000, some "transport", lc "Transaction", 0.8505, "expense"⟩
     (by decide),
   (C7_amount_sign_invariant (lc "45k taxi, 15k snacks") []).2
     [⟨45000, some "transport", lc "Transaction", 0.8505, "expense"⟩,
      ⟨15000, some "food", lc "snacks", 0.756, "expense"⟩] 2 (3213/4000)
     (by decide) ⟨15000, some "food", lc "snacks", 0.756, "expense"⟩
     (by decide)⟩

/-! ## C5: the thousands-suffix multiplier -/

theorem containsSub_cons (n : List Char) (c : Char) (t : List Char)
    (h : containsSub n t = true) : containsSub n (c :: t) = true := by
  simp [containsSub, h]

theorem containsSub_of_prefix (n t : List Char) (h : n.isPrefixOf t = true) :
    containsSub n t = true := by
  cases t with
  | nil =>
    cases n with
    | nil => decide
    | cons a n => simp [List.isPrefixOf] at h
  | cons c t => simp [containsSub, h]

theorem containsSub_of_infix (n : List Char) :
    ∀ (a b : List Char), containsSub n (a ++ (n ++ b)) = true := by
  intro a
  induction a with
  | nil =>
    intro b
    rw [List.nil_append]
    exact containsSub_of_prefix n (n ++ b) (List.isPrefixOf_iff_prefix.mpr (List.prefix_append n b))
  | cons c a ih =>
    intro b
    rw [List.cons_append]
    exact containsSub_cons _ _ _ (ih b)

theorem matchCIPrefix_toLower (kw : List Char) :
    ∀ s u r, matchCIPrefix kw s = some (u, r) → toLowerL u = kw := by
  induction kw with
  | nil =>
    intro s u r h
    simp only [matchCIPrefix, Option.some_inj, Prod.mk.injEq] at h
    rw [← h.1]; rfl
  | cons a kw ih =>
    intro s u r h
    cases s with
    | nil => exact Option.noConfusion h
    | cons c s' =>
      simp only [matchCIPrefix] at h
      split at h
      · obtain ⟨p, hp, he⟩ := Option.map_eq_some'.mp h
        obtain ⟨u', r'⟩ := p
        simp only [Prod.mk.injEq] at he
        rw [← he.1]
        have hlow := ih s' u' r' hp
        simp only [toLowerL, List.map_cons] at hlow ⊢
        rw [hlow]
        exact congrArg (fun x => x :: kw) (by assumption)
      · exact absurd h (by simp)

theorem tryAlts_suffix :
    ∀ alts s u t r, tryAlts alts s = some (u, t, r) →
      ∃ alt ∈ alts, toLowerL u = alt := by
  intro alts
  induction alts with
  | nil => intro s u t r h; exact Option.noConfusion h
  | cons alt alts ih =>
    intro s u t r h
    simp only [tryAlts] at h
    cases h1 : matchCIPrefix alt s with
    | none =>
      rw [h1] at h
      obtain ⟨a, ha, hu⟩ := ih s u t r h
      exact ⟨a, List.mem_cons_of_mem _ ha, hu⟩
    | some p =>
      obtain ⟨u', r'⟩ := p
      rw [h1] at h
      dsimp only at h
      cases h2 : matchTrail r' with
      | none =>
        rw [h2] at h
        obtain ⟨a, ha, hu⟩ := ih s u t r h
        exact ⟨a, List.mem_cons_of_mem _ ha, hu⟩
      | some q =>
        obtain ⟨t', r2⟩ := q
        rw [h2] at h
        simp only [Option.some_inj, Prod.mk.injEq] at h
        obtain ⟨hu, _, _⟩ := h
        subst hu
        exact ⟨alt, List.mem_cons_self _ _, matchCIPrefix_toLower alt s u' r' h1⟩

theorem matchSufThenTrail_suffix :
    ∀ s u t r, matchSufThenTrail s = some (u, t, r) →
      u = [] ∨ ∃ alt ∈ suffixAlts, toLowerL u = alt := by
  intro s u t r h
  simp only [matchSufThenTrail] at h
  cases h1 : tryAlts suffixAlts s with
  | some q =>
    rw [h1] at h
    simp only [Option.some_inj] at h
    rw [h] at h1
    exact Or.inr (tryAlts_suffix _ s u t r h1)
  | none =>
    rw [h1] at h
    obtain ⟨p, hp, he⟩ := Option.map_eq_some'.mp h
    simp only [Prod.mk.injEq] at he
    exact Or.inl he.1.symm

theorem trySpaces_suffix (s : List Char) :
    ∀ k sp suf t r, trySpaces s k = some (sp, suf, t, r) →
      suf = [] ∨ ∃ alt ∈ suffixAlts, toLowerL suf = alt := by
  intro k
  induction k with
  | zero =>
    intro sp suf t r h
    rw [trySpaces] at h
    cases h1 : matchSufThenTrail (s.drop 0) with
    | none => rw [h1] at h; exact absurd h (by simp)
    | some q =>
      obtain ⟨suf', t', r'⟩ := q
      rw [h1] at h
      simp only [Option.some_inj, Prod.mk.injEq] at h
      obtain ⟨_, hsuf, ht, hr⟩ := h
      subst hsuf ht hr
      exact matchSufThenTrail_suffix _ _ _ _ h1
  | succ k ih =>
    intro sp suf t r h
    rw [trySpaces] at h
    cases h1 : matchSufThenTrail (s.drop (k + 1)) with
    | none => rw [h1] at h; exact ih sp suf t r h
    | some q =>
      obtain ⟨suf', t', r'⟩ := q
      rw [h1] at h
      simp only [Option.some_inj, Prod.mk.injEq] at h
      obtain ⟨_, hsuf, ht, hr⟩ := h
      subst hsuf ht hr
      exact matchSufThenTrail_suffix _ _ _ _ h1

theorem matchNumNoDec_suffix :
    ∀ ds r1 m rest, matchNumNoDec ds r1 = some (m, rest) →
      m.suffix = [] ∨ ∃ alt ∈ suffixAlts, toLowerL m.suffix = alt := by
  intro ds r1 m rest h
  obtain ⟨p, hp, he⟩ := Option.map_eq_some'.mp h
  obtain ⟨sp, suf, t, r'⟩ := p
  simp only [Prod.mk.injEq] at he
  obtain ⟨hm, _⟩ := he
  rw [← hm]
  exact trySpaces_suffix _ _ _ _ _ _ hp

theorem matchNumTail_suffix :
    ∀ s m rest, matchNumTail s = some (m, rest) →
      m.suffix = [] ∨ ∃ alt ∈ suffixAlts, toLowerL m.suffix = alt := by
  intro s m rest h
  rw [matchNumTail] at h
  by_cases hds : (s.takeWhile asciiDigit).isEmpty
  · rw [if_pos hds] at h; exact absurd h (by simp)
  · rw [if_neg hds] at h
    have hnoDec :
        matchNumNoDec (s.takeWhile asciiDigit) (s.dropWhile asciiDigit) = some (m, rest) →
        m.suffix = [] ∨ ∃ alt ∈ suffixAlts, toLowerL m.suffix = alt :=
      fun hmap => matchNumNoDec_suffix _ _ _ _ hmap
    cases hdw : s.dropWhile asciiDigit with
    | nil => rw [hdw] at h; rw [hdw] at hnoDec; exact hnoDec h
    | cons sep r2 =>
      rw [hdw] at h; rw [hdw] at hnoDec
      dsimp only at h
      by_cases hsep : sep = '.' || sep = ','
      · rw [if_pos hsep] at h
        by_cases hds2 : (r2.takeWhile asciiDigit).isEmpty
        · rw [if_pos hds2] at h; exact hnoDec h
        · rw [if_neg hds2] at h
          cases h1 : matchSpacesSufTrail (r2.dropWhile asciiDigit) with
          | none => rw [h1] at h; exact hnoDec h
          | some p =>
            obtain ⟨sp, suf, t, r'⟩ := p
            rw [h1] at h
            simp only [Option.some_inj, Prod.mk.injEq] at h
            obtain ⟨hm, _⟩ := h
            rw [← hm]
            exact trySpaces_suffix _ _ _ _ _ _ h1
      · rw [if_neg hsep] at h; exact hnoDec h

theorem tryAmountAt_suffix :
    ∀ b s m rest, tryAmountAt b s = some (m, rest) →
      m.suffix = [] ∨ ∃ alt ∈ suffixAlts, toLowerL m.suffix = alt := by
  intro b s m rest h
  rw [tryAmountAt.eq_def] at h
  cases hb : (if b then matchNumTail s else none) with
  | some p =>
    rw [hb] at h
    cases h
    have hmt : matchNumTail s = some p := by
      cases b with
      | true => simpa using hb
      | false => simp at hb
    exact matchNumTail_suffix _ _ _ hmt
  | none =>
    rw [hb] at h
    cases s with
    | nil => exact Option.noConfusion h
    | cons c s' =>
      dsimp only at h
      by_cases hc : pySpace c || c = ','
      · rw [if_pos hc] at h
        obtain ⟨p, hp, he⟩ := Option.map_eq_some'.mp h
        simp only [Prod.mk.injEq] at he
        obtain ⟨hm, _⟩ := he
        rw [← hm]
        have hp2 : matchNumTail s' = some (p.1, p.2) := by rw [hp]
        exact matchNumTail_suffix s' p.1 p.2 hp2
      · rw [if_neg hc] at h
        exact Option.noConfusion h

theorem amountMatchesAux_suffix :
    ∀ (s : List Char) (skip : ℕ) (b : Bool) (m : AmountMatch),
      m ∈ amountMatchesAux skip b s →
      m.suffix = [] ∨ ∃ alt ∈ suffixAlts, toLowerL m.suffix = alt := by
  intro s
  induction s with
  | nil =>
    intro skip b m hm
    simp [amountMatchesAux] at hm
  | cons c rest ih =>
    intro skip b m hm
    cases skip with
    | succ k =>
      rw [amountMatchesAux] at hm
      exact ih k false m hm
    | zero =>
      rw [amountMatchesAux] at hm
      cases h1 : tryAmountAt b (c :: rest) with
      | some p =>
        rw [h1] at hm
        obtain ⟨m0, r0⟩ := p
        rw [List.mem_cons] at hm
        rcases hm with hm | hm
        · subst hm
          exact tryAmountAt_suffix _ _ _ _ h1
        · exact ih _ false m hm
      | none =>
        rw [h1] at hm
        exact ih 0 false m hm

theorem searchAmount_suffix (s : List Char) (m : AmountMatch)
    (h : searchAmount s = some m) :
    m.suffix = [] ∨ ∃ alt ∈ suffixAlts, toLowerL m.suffix = alt := by
  unfold searchAmount at h
  cases hl : amountFindall s with
  | nil => rw [hl] at h; exact Option.noConfusion h
  | cons a t =>
    rw [hl] at h
    simp only [List.head?_cons, Option.some_inj] at h
    have hmem : m ∈ amountMatchesAux 0 true s := by
      rw [show amountMatchesAux 0 true s = amountFindall s from rfl, hl, ← h]
      exact List.mem_cons_self _ _
    exact amountMatchesAux_suffix s 0 true m hmem

/-- C5 (amended): when no currency symbol matches and the first amount
match in scan order carries a non-empty thousands suffix (k, к,
thousand, тысяч, т or thous), the extracted amount is exactly 1000
times the numeric value of the matched number.  The claim as stated
fails when an earlier suffix-less number precedes the suffixed one
(see the counterexample): only the first match is consulted. -/
theorem C5_thousands_multiplier (text : List Char)
    (hc : searchCurrency text = none)
    (m : AmountMatch) (ha : searchAmount text = some m) (hs : m.suffix ≠ []) :
    (extract_amount_improved text).1 = some (1000 * amountValue m) := by
  have hd := searchAmount_suffix text m ha
  rcases hd with h0 | ⟨alt, halt, hlow⟩
  · exact absurd h0 hs
  · have hin : thousandTokens.any
        (fun x => containsSub (lc x) (toLowerL (amountGroup0 m))) = true := by
      have hsplit : toLowerL (amountGroup0 m) =
          (toLowerL m.lead.toList ++ toLowerL m.intPart ++
           toLowerL (match m.decPart with | none => [] | some (sep, ds) => sep :: ds) ++
           toLowerL m.spaces) ++ (toLowerL m.suffix ++ toLowerL m.trail.toList) := by
        simp [amountGroup0, toLowerL, List.map_append]
      obtain ⟨x, hx, hlcx⟩ : ∃ x ∈ thousandTokens, lc x = alt := by
        simp only [suffixAlts, List.mem_cons, List.not_mem_nil, or_false] at halt
        rcases halt with h | h | h | h | h | h
        · exact ⟨"k", by decide, h.symm ▸ rfl⟩
        · exact ⟨"к", by decide, h.symm ▸ rfl⟩
        · exact ⟨"thousand", by decide, h.symm ▸ rfl⟩
        · exact ⟨"тысяч", by decide, h.symm ▸ rfl⟩
        · exact ⟨"т", by decide, h.symm ▸ rfl⟩
        · exact ⟨"thous", by decide, h.symm ▸ rfl⟩
      refine List.any_eq_true.mpr ⟨x, hx, ?_⟩
      rw [hsplit, hlcx, hlow.symm]
      exact containsSub_of_infix (toLowerL m.suffix) _ _
    simp only [extract_amount_improved, hc, ha]
    rw [if_pos hin]
    rw [mul_comm]

/-- C5 counterexample: 5 10k contains the number 10 immediately
followed by the suffix k within word boundaries (a space before, end of
string after), yet the extractor returns 5 — the first, suffix-less
match wins and no multiplier is applied. -/
theorem C5_counterexample :
    lc "5 10k" = lc "5 " ++ lc "10" ++ lc "k" ∧
    (extract_amount_improved (lc "5 10k")).1 = some 5 ∧
    (5 : ℚ) ≠ 1000 * 10 := by decide

/-- C5 witness: the amended multiplier rule applied to 45k x. -/
theorem C5_thousands_multiplier_witness :
    searchCurrency (lc "45k x") = none ∧
    searchAmount (lc "45k x") = some ⟨none, lc "45", none, [], lc "k", some ' '⟩ ∧
    (⟨none, lc "45", none, [], lc "k", some ' '⟩ : AmountMatch).suffix ≠ [] ∧
    (extract_amount_improved (lc "45k x")).1 =
      some (1000 * amountValue ⟨none, lc "45", none, [], lc "k", some ' '⟩) :=
  ⟨by decide, by decide, by decide,
   C5_thousands_multiplier (lc "45k x") (by decide) _ (by decide) (by decide)⟩

/-! ## C6: the description extractor -/

theorem extract_description_eq (text : List Char) (amount : Option ℚ) :
    extract_description text amount =
      (if (if (descriptionPreTruncation text amount).length > 100
           then (descriptionPreTruncation text amount).take 97 ++ lc "..."
           else descriptionPreTruncation text amount).isEmpty
       then lc "Transaction"
       else if (descriptionPreTruncation text amount).length > 100
            then (descriptionPreTruncation text amount).take 97 ++ lc "..."
            else descriptionPreTruncation text amount) := rfl

theorem toNat_ofNat_valid (n : ℕ) (h : n < 55296) : (Char.ofNat n).toNat = n := by
  have hv : n.isValidChar := Or.inl h
  rw [Char.ofNat, dif_pos hv]
  rfl

theorem wordChar_toLowerCh (c : Char) : wordChar (toLowerCh c) = wordChar c := by
  unfold toLowerCh
  split_ifs with h1 h2 h3
  · simp only [Bool.and_eq_true, decide_eq_true_eq] at h1
    have he : (Char.ofNat (c.toNat + 32)).toNat = c.toNat + 32 :=
      toNat_ofNat_valid _ (by omega)
    simp only [wordChar, he]
    apply Bool.eq_iff_iff.mpr
    simp only [Bool.or_eq_true, Bool.and_eq_true, decide_eq_true_eq]
    omega
  · simp only [Bool.and_eq_true, decide_eq_true_eq] at h2
    have he : (Char.ofNat (c.toNat + 0x20)).toNat = c.toNat + 0x20 :=
      toNat_ofNat_valid _ (by omega)
    simp only [wordChar, he]
    apply Bool.eq_iff_iff.mpr
    simp only [Bool.or_eq_true, Bool.and_eq_true, decide_eq_true_eq]
    omega
  · simp only [decide_eq_true_eq] at h3
    have he : (Char.ofNat 0x451).toNat = 0x451 := toNat_ofNat_valid _ (by omega)
    simp only [wordChar, he]
    apply Bool.eq_iff_iff.mpr
    simp only [Bool.or_eq_true, Bool.and_eq_true, decide_eq_true_eq]
    omega
  · rfl

theorem pySpace_not_wordChar (c : Char) (h : pySpace c = true) : wordChar c = false := by
  simp only [pySpace, Bool.or_eq_true, decide_eq_true_eq] at h
  simp only [or_assoc] at h
  rcases h with h | h | h | h | h | h <;> (subst h; decide)

theorem takeWhile_nil_of_boundary (z : List Char) (hz : wordBoundaryAfter z = true) :
    z.takeWhile wordChar = [] := by
  cases z with
  | nil => rfl
  | cons d z2 =>
    simp only [wordBoundaryAfter, Bool.not_eq_true'] at hz
    simp [hz]

theorem dropWhile_self_of_boundary (z : List Char) (hz : wordBoundaryAfter z = true) :
    z.dropWhile wordChar = z := by
  cases z with
  | nil => rfl
  | cons d z2 =>
    simp only [wordBoundaryAfter, Bool.not_eq_true'] at hz
    simp [hz]

theorem wordRuns_nil : wordRuns [] = [] := by rw [wordRuns]

theorem wordRuns_cons_nonword (c : Char) (s : List Char) (h : wordChar c = false) :
    wordRuns (c :: s) = wordRuns s := by
  rw [wordRuns]
  simp [h]

theorem wordRuns_cons_word (c : Char) (s : List Char) (h : wordChar c = true) :
    wordRuns (c :: s) =
      (c :: s.takeWhile wordChar) :: wordRuns (s.dropWhile wordChar) := by
  rw [wordRuns]
  simp [h]

theorem wordRuns_append_run (w z : List Char) (hne : w ≠ []) (hw : w.all wordChar = true)
    (hz : wordBoundaryAfter z = true) :
    wordRuns (w ++ z) = w :: wordRuns z := by
  cases w with
  | nil => exact absurd rfl hne
  | cons c w' =>
    simp only [List.all_cons, Bool.and_eq_true] at hw
    rw [List.cons_append, wordRuns_cons_word _ _ hw.1]
    have hall : ∀ a ∈ w', wordChar a = true := List.all_eq_true.mp hw.2
    rw [List.takeWhile_append_of_pos hall, List.dropWhile_append_of_pos hall]
    rw [takeWhile_nil_of_boundary z hz, dropWhile_self_of_boundary z hz]
    simp

theorem all_nonword_boundary (z : List Char)
    (hz : z.all (fun c => !wordChar c) = true) : wordBoundaryAfter z = true := by
  cases z with
  | nil => rfl
  | cons d z2 =>
    simp only [List.all_cons, Bool.and_eq_true] at hz
    simp [wordBoundaryAfter, hz.1]

theorem wordRuns_append_left_nonword (z t : List Char)
    (hz : z.all (fun c => !wordChar c) = true) :
    wordRuns (z ++ t) = wordRuns t := by
  induction z with
  | nil => rfl
  | cons c z2 ih =>
    simp only [List.all_cons, Bool.and_eq_true, Bool.not_eq_true'] at hz
    rw [List.cons_append, wordRuns_cons_nonword _ _ hz.1]
    exact ih (by simpa using hz.2)

theorem wordRuns_all_nonword (z : List Char)
    (hz : z.all (fun c => !wordChar c) = true) : wordRuns z = [] := by
  have := wordRuns_append_left_nonword z [] hz
  rw [List.append_nil] at this
  rw [this, wordRuns_nil]

theorem wordRuns_append_right_nonword_bounded :
    ∀ (n : ℕ) (t : List Char), t.length ≤ n →
      ∀ z, z.all (fun c => !wordChar c) = true → wordRuns (t ++ z) = wordRuns t := by
  intro n
  induction n with
  | zero =>
    intro t ht z hz
    have : t = [] := List.length_eq_zero.mp (Nat.le_zero.mp ht)
    subst this
    rw [List.nil_append, wordRuns_nil]
    exact wordRuns_all_nonword z hz
  | succ n ih =>
    intro t ht z hz
    cases t with
    | nil =>
      rw [List.nil_append, wordRuns_nil]
      exact wordRuns_all_nonword z hz
    | cons c t' =>
      by_cases hc : wordChar c = true
      · rw [List.cons_append, wordRuns_cons_word _ _ hc, wordRuns_cons_word _ _ hc]
        have hztw : z.takeWhile wordChar = [] :=
          takeWhile_nil_of_boundary z (all_nonword_boundary z hz)
        have hzdw : z.dropWhile wordChar = z :=
          dropWhile_self_of_boundary z (all_nonword_boundary z hz)
        cases hdw : t'.dropWhile wordChar with
        | nil =>
          have htw : t'.takeWhile wordChar = t' := by
            have := List.takeWhile_append_dropWhile wordChar t'
            rw [hdw] at this
            simpa using this
          have hallw : ∀ a ∈ t', wordChar a = true := by
            intro a ha
            rw [← htw] at ha
            exact List.mem_takeWhile_imp ha
          rw [List.takeWhile_append_of_pos hallw, List.dropWhile_append_of_pos hallw]
          rw [hztw, hzdw, htw, wordRuns_nil]
          rw [List.append_nil]
          rw [wordRuns_all_nonword z hz]
        | cons d r2 =>
          have hlt : ¬ (t'.takeWhile wordChar).length = t'.length := by
            intro he
            have hsp := List.takeWhile_append_dropWhile wordChar t'
            have := congrArg List.length hsp
            rw [List.length_append, hdw] at this
            simp at this
            omega
          rw [List.takeWhile_append, if_neg hlt]
          rw [List.dropWhile_append]
          have hne2 : ¬ (t'.dropWhile wordChar).isEmpty = true := by
            rw [hdw]; simp
          rw [if_neg hne2]
          congr 1
          rw [hdw]
          have hlen2 : (d :: r2).length ≤ n := by
            have hsp := congrArg List.length (List.takeWhile_append_dropWhile wordChar t')
            rw [List.length_append, hdw] at hsp
            simp only [List.length_cons] at ht hsp ⊢
            omega
          exact ih (d :: r2) hlen2 z hz
      · rw [List.cons_append]
        rw [wordRuns_cons_nonword _ _ (by simpa using hc),
            wordRuns_cons_nonword _ _ (by simpa using hc)]
        exact ih t' (by simp at ht; omega) z hz

theorem wordRuns_append_right_nonword (t z : List Char)
    (hz : z.all (fun c => !wordChar c) = true) :
    wordRuns (t ++ z) = wordRuns t :=
  wordRuns_append_right_nonword_bounded t.length t (le_refl _) z hz

theorem matchCIPrefix_self (w : List Char) :
    ∀ z, matchCIPrefix (toLowerL w) (w ++ z) = some (w, z) := by
  induction w with
  | nil => intro z; rfl
  | cons c w' ih =>
    intro z
    have h2 := ih z
    simp only [toLowerL] at h2 ⊢
    simp only [List.map_cons, List.cons_append, matchCIPrefix]
    simp [h2]

theorem matchCIPrefix_none_nonword (a : Char) (kw2 : List Char) (ha : wordChar a = true)
    (c : Char) (hc : wordChar c = false) (x : List Char) :
    matchCIPrefix (a :: kw2) (c :: x) = none := by
  simp only [matchCIPrefix]
  rw [if_neg]
  intro he
  rw [← he, wordChar_toLowerCh] at ha
  rw [ha] at hc
  exact Bool.noConfusion hc

theorem matchCIPrefix_all_word (kw : List Char) (hw : kw.all wordChar = true) :
    ∀ s u r, matchCIPrefix kw s = some (u, r) → u.all wordChar = true := by
  intro s u r h
  have hl := matchCIPrefix_toLower kw s u r h
  rw [← hl] at hw
  rw [List.all_eq_true] at hw ⊢
  intro c hc
  have := hw (toLowerCh c) (by simp only [toLowerL]; exact List.mem_map_of_mem _ hc)
  rwa [wordChar_toLowerCh] at this

theorem takeWhile_eq_of_split (p : Char → Bool) :
    ∀ (u r : List Char), u.all p = true → (∀ d, r.head? = some d → p d = false) →
      (u ++ r).takeWhile p = u := by
  intro u
  induction u with
  | nil =>
    intro r _ hr
    cases r with
    | nil => rfl
    | cons d r2 =>
      simp only [List.nil_append]
      rw [List.takeWhile_cons_of_neg]
      simp [hr d rfl]
  | cons c u' ih =>
    intro r hu hr
    simp only [List.all_cons, Bool.and_eq_true] at hu
    rw [List.cons_append, List.takeWhile_cons_of_pos hu.1]
    rw [ih r hu.2 hr]

theorem removeBoundedAux_zero_cons (kw : List Char) (prev : Option Char) (c : Char)
    (rest : List Char) :
    removeBoundedAux kw 0 prev (c :: rest) =
      (match matchCIPrefix kw (c :: rest) with
       | some (_, r) =>
         if wordBoundaryBefore prev && wordBoundaryAfter r then
           removeBoundedAux kw (kw.length - 1) (some c) rest
         else c :: removeBoundedAux kw 0 (some c) rest
       | none => c :: removeBoundedAux kw 0 (some c) rest) := rfl

theorem hasBoundedOccAux_cons (kw : List Char) (prev : Option Char) (c : Char)
    (rest : List Char) :
    hasBoundedOccAux kw prev (c :: rest) =
      ((match matchCIPrefix kw (c :: rest) with
        | some (_, r) => wordBoundaryBefore prev && wordBoundaryAfter r
        | none => false) || hasBoundedOccAux kw (some c) rest) := rfl

theorem removeBoundedAux_keep (kw : List Char) (prev : Option Char) (c : Char)
    (rest : List Char)
    (h : ∀ u r, matchCIPrefix kw (c :: rest) = some (u, r) →
         (wordBoundaryBefore prev && wordBoundaryAfter r) = false) :
    removeBoundedAux kw 0 prev (c :: rest) = c :: removeBoundedAux kw 0 (some c) rest := by
  rw [removeBoundedAux_zero_cons]
  cases hm : matchCIPrefix kw (c :: rest) with
  | none => rfl
  | some q =>
    obtain ⟨u, r⟩ := q
    dsimp only
    rw [if_neg]
    simp [h u r hm]

theorem removeBoundedAux_remove (kw : List Char) (prev : Option Char) (c : Char)
    (rest u r : List Char)
    (hm : matchCIPrefix kw (c :: rest) = some (u, r))
    (hb : (wordBoundaryBefore prev && wordBoundaryAfter r) = true) :
    removeBoundedAux kw 0 prev (c :: rest) =
      removeBoundedAux kw (kw.length - 1) (some c) rest := by
  rw [removeBoundedAux_zero_cons, hm]
  dsimp only
  rw [if_pos hb]

theorem removeBoundedAux_skip (kw : List Char) :
    ∀ (k : ℕ) (prev : Option Char) (s : List Char),
      removeBoundedAux kw k prev s =
        removeBoundedAux kw 0 (prevAfterK k prev s) (s.drop k) := by
  intro k
  induction k with
  | zero => intro prev s; rfl
  | succ k ih =>
    intro prev s
    cases s with
    | nil => rfl
    | cons c rest =>
      show removeBoundedAux kw k (some c) rest = _
      rw [ih (some c) rest]
      rfl

theorem removeBoundedAux_prefix_copy (kw : List Char) :
    ∀ (s : List Char) (p : Char), wordChar p = true →
      ∃ q, wordChar q = true ∧
        removeBoundedAux kw 0 (some p) s =
          s.takeWhile wordChar ++
            removeBoundedAux kw 0 (some q) (s.dropWhile wordChar) := by
  intro s
  induction s with
  | nil => intro p hp; exact ⟨p, hp, rfl⟩
  | cons c rest ih =>
    intro p hp
    by_cases hc : wordChar c = true
    · have hstep : removeBoundedAux kw 0 (some p) (c :: rest) =
          c :: removeBoundedAux kw 0 (some c) rest := by
        apply removeBoundedAux_keep
        intro u r _
        simp [wordBoundaryBefore, hp]
      obtain ⟨q, hq, he⟩ := ih c hc
      refine ⟨q, hq, ?_⟩
      rw [hstep, he]
      rw [List.takeWhile_cons_of_pos hc, List.dropWhile_cons_of_pos hc]
      rfl
    · refine ⟨p, hp, ?_⟩
      rw [List.takeWhile_cons_of_neg (by simpa using hc),
          List.dropWhile_cons_of_neg (by simpa using hc)]
      rfl

theorem dropWhile_head_not (p : Char → Bool) :
    ∀ (l : List Char) (d : Char) (z : List Char), l.dropWhile p = d :: z → p d = false := by
  intro l
  induction l with
  | nil => intro d z h; exact List.noConfusion h
  | cons c l2 ih =>
    intro d z h
    by_cases hp : p c = true
    · rw [List.dropWhile_cons_of_pos hp] at h
      exact ih d z h
    · rw [List.dropWhile_cons_of_neg (by simpa using hp)] at h
      cases h
      simpa using hp

theorem takeWhile_eq_self_of_all (p : Char → Bool) (l : List Char) (h : l.all p = true) :
    l.takeWhile p = l := by
  induction l with
  | nil => rfl
  | cons c l2 ih =>
    simp only [List.all_cons, Bool.and_eq_true] at h
    rw [List.takeWhile_cons_of_pos h.1, ih h.2]

theorem dropWhile_nil_of_all (p : Char → Bool) (l : List Char) (h : l.all p = true) :
    l.dropWhile p = [] := by
  induction l with
  | nil => rfl
  | cons c l2 ih =>
    simp only [List.all_cons, Bool.and_eq_true] at h
    rw [List.dropWhile_cons_of_pos h.1]
    exact ih h.2

theorem removeBoundedAux_nil (kw : List Char) (k : ℕ) (prev : Option Char) :
    removeBoundedAux kw k prev [] = [] := by
  cases k <;> rfl

/-- The removal scan deletes exactly the maximal word runs that equal
the (word-only) keyword case-insensitively, and leaves every other run
intact. -/
theorem removeBounded_runs_bounded (kw : List Char) (hkw : kw ≠ [])
    (hw : kw.all wordChar = true) :
    ∀ (n : ℕ) (s : List Char), s.length ≤ n → ∀ (prev : Option Char),
      wordBoundaryBefore prev = true →
      wordRuns (removeBoundedAux kw 0 prev s) =
        (wordRuns s).filter (fun w => !(toLowerL w == kw)) := by
  obtain ⟨a, kw2, hkwc⟩ : ∃ a kw2, kw = a :: kw2 := by
    cases kw with
    | nil => exact absurd rfl hkw
    | cons a kw2 => exact ⟨a, kw2, rfl⟩
  have hwa : wordChar a = true := by
    rw [hkwc] at hw
    simp only [List.all_cons, Bool.and_eq_true] at hw
    exact hw.1
  intro n
  induction n with
  | zero =>
    intro s hs prev hbb
    have : s = [] := List.length_eq_zero.mp (Nat.le_zero.mp hs)
    subst this
    rw [removeBoundedAux_nil, wordRuns_nil]
    rfl
  | succ n ih =>
    intro s hs prev hbb
    cases s with
    | nil =>
      rw [removeBoundedAux_nil, wordRuns_nil]
      rfl
    | cons c rest =>
      simp only [List.length_cons] at hs
      by_cases hc : wordChar c = true
      · -- the head starts a word run
        have hsplit : rest.takeWhile wordChar ++ rest.dropWhile wordChar = rest :=
          List.takeWhile_append_dropWhile _ _
        have htwall : (rest.takeWhile wordChar).all wordChar = true := by
          rw [List.all_eq_true]
          intro x hx
          exact List.mem_takeWhile_imp hx
        by_cases hkweq : toLowerL (c :: rest.takeWhile wordChar) = kw
        · -- the head run is removed
          have hba : wordBoundaryAfter (rest.dropWhile wordChar) = true := by
            cases hdz : rest.dropWhile wordChar with
            | nil => rfl
            | cons d z2 =>
              simp only [wordBoundaryAfter]
              rw [dropWhile_head_not wordChar rest d z2 hdz]
              rfl
          have hmatch : matchCIPrefix kw (c :: rest) =
              some (c :: rest.takeWhile wordChar, rest.dropWhile wordChar) := by
            have hms := matchCIPrefix_self (c :: rest.takeWhile wordChar)
              (rest.dropWhile wordChar)
            rw [hkweq] at hms
            rw [← hms]
            congr 1
            rw [List.cons_append, hsplit]
          rw [removeBoundedAux_remove kw prev c rest _ _ hmatch (by rw [hbb, hba]; rfl)]
          rw [removeBoundedAux_skip]
          have hlkw : kw.length - 1 = (rest.takeWhile wordChar).length := by
            have := congrArg List.length hkweq
            simp only [toLowerL, List.length_map, List.length_cons] at this
            omega
          rw [hlkw]
          have hdrop : rest.drop (rest.takeWhile wordChar).length =
              rest.dropWhile wordChar := by
            have hdl := List.drop_left (rest.takeWhile wordChar) (rest.dropWhile wordChar)
            rw [hsplit] at hdl
            exact hdl
          rw [hdrop]
          rw [wordRuns_cons_word c rest hc, List.filter_cons]
          have hflt : (!(toLowerL (c :: rest.takeWhile wordChar) == kw)) = false := by
            simp [hkweq]
          simp only [hflt, Bool.false_eq_true, if_false]
          cases hdz : rest.dropWhile wordChar with
          | nil =>
            rw [removeBoundedAux_nil, wordRuns_nil]
            rfl
          | cons d z2 =>
            have hd : wordChar d = false := dropWhile_head_not wordChar rest d z2 hdz
            have hkeep2 := removeBoundedAux_keep kw
              (prevAfterK (rest.takeWhile wordChar).length (some c) rest) d z2 (by
                intro u r hur
                rw [hkwc, matchCIPrefix_none_nonword a kw2 hwa d hd z2] at hur
                exact Option.noConfusion hur)
            rw [hkeep2]
            rw [wordRuns_cons_nonword d _ hd, wordRuns_cons_nonword d z2 hd]
            have hlen2 : z2.length ≤ n := by
              have h1 := dropWhileLengthLe wordChar rest
              have h2 := congrArg List.length hdz
              simp only [List.length_cons] at h2
              omega
            exact ih z2 hlen2 (some d) (by simp [wordBoundaryBefore, hd])
        · -- the head run is kept
          have hkeepc : removeBoundedAux kw 0 prev (c :: rest) =
              c :: removeBoundedAux kw 0 (some c) rest := by
            apply removeBoundedAux_keep
            intro u r hur
            by_cases hba : wordBoundaryAfter r = true
            · exfalso
              apply hkweq
              have hdec := matchCIPrefix_decomp kw _ _ _ hur
              have huw : u.all wordChar = true := matchCIPrefix_all_word kw hw _ _ _ hur
              have hrhd : ∀ d, r.head? = some d → wordChar d = false := by
                intro d hd
                cases r with
                | nil => exact Option.noConfusion hd
                | cons e r2 =>
                  simp only [List.head?_cons, Option.some_inj] at hd
                  subst hd
                  simpa [wordBoundaryAfter] using hba
              have hu : (c :: rest).takeWhile wordChar = u := by
                rw [hdec]
                exact takeWhile_eq_of_split wordChar u r huw hrhd
              have hut : toLowerL u = kw := matchCIPrefix_toLower kw _ _ _ hur
              rw [← hut, ← hu]
              rw [List.takeWhile_cons_of_pos hc]
            · have hba2 : wordBoundaryAfter r = false := by simpa using hba
              simp [hba2]
          rw [hkeepc]
          obtain ⟨q, hq, hpc⟩ := removeBoundedAux_prefix_copy kw rest c hc
          rw [hpc]
          rw [wordRuns_cons_word c rest hc, List.filter_cons]
          have hflt : (!(toLowerL (c :: rest.takeWhile wordChar) == kw)) = true := by
            simp [hkweq]
          simp only [hflt, if_true]
          cases hdz : rest.dropWhile wordChar with
          | nil =>
            rw [removeBoundedAux_nil, List.append_nil]
            rw [wordRuns_cons_word c _ hc]
            rw [takeWhile_eq_self_of_all wordChar _ htwall,
                dropWhile_nil_of_all wordChar _ htwall]
            rw [wordRuns_nil]
            rfl
          | cons d z2 =>
            have hd : wordChar d = false := dropWhile_head_not wordChar rest d z2 hdz
            have hkeep2 := removeBoundedAux_keep kw q d z2 (by
              intro u r hur
              rw [hkwc, matchCIPrefix_none_nonword a kw2 hwa d hd z2] at hur
              exact Option.noConfusion hur)
            rw [hkeep2]
            rw [← List.cons_append]
            rw [wordRuns_append_run (c :: rest.takeWhile wordChar)
                (d :: removeBoundedAux kw 0 (some d) z2)
                (by simp)
                (by simp only [List.all_cons, Bool.and_eq_true]; exact ⟨hc, htwall⟩)
                (by simp [wordBoundaryAfter, hd])]
            rw [wordRuns_cons_nonword d _ hd, wordRuns_cons_nonword d z2 hd]
            have hlen2 : z2.length ≤ n := by
              have h1 := dropWhileLengthLe wordChar rest
              have h2 := congrArg List.length hdz
              simp only [List.length_cons] at h2
              omega
            rw [ih z2 hlen2 (some d) (by simp [wordBoundaryBefore, hd])]
      · -- non-word head character: kept verbatim
        have hcf : wordChar c = false := by simpa using hc
        have hkeepc : removeBoundedAux kw 0 prev (c :: rest) =
            c :: removeBoundedAux kw 0 (some c) rest := by
          apply removeBoundedAux_keep
          intro u r hur
          rw [hkwc, matchCIPrefix_none_nonword a kw2 hwa c hcf rest] at hur
          exact Option.noConfusion hur
        rw [hkeepc]
        rw [wordRuns_cons_nonword c _ hcf, wordRuns_cons_nonword c rest hcf]
        exact ih rest (by omega) (some c) (by simp [wordBoundaryBefore, hcf])

theorem removeBounded_runs (kw : List Char) (hkw : kw ≠ [])
    (hw : kw.all wordChar = true) (s : List Char) :
    wordRuns (pyReSubBounded kw s) =
      (wordRuns s).filter (fun w => !(toLowerL w == kw)) := by
  unfold pyReSubBounded
  rw [if_neg hkw]
  exact removeBounded_runs_bounded kw hkw hw s.length s (le_refl _) none rfl

theorem hasBoundedOccAux_nil (kw : List Char) (prev : Option Char) :
    hasBoundedOccAux kw prev [] = false := rfl

theorem hasBoundedOccAux_in_run (kw : List Char) :
    ∀ (tw : List Char), tw.all wordChar = true →
      ∀ (z : List Char) (p : Char), wordChar p = true →
        ∃ q, wordChar q = true ∧
          hasBoundedOccAux kw (some p) (tw ++ z) = hasBoundedOccAux kw (some q) z := by
  intro tw
  induction tw with
  | nil => intro _ z p hp; exact ⟨p, hp, rfl⟩
  | cons t tw2 ih =>
    intro hall z p hp
    simp only [List.all_cons, Bool.and_eq_true] at hall
    rw [List.cons_append, hasBoundedOccAux_cons]
    have hch : (match matchCIPrefix kw (t :: (tw2 ++ z)) with
        | some (_, r) => wordBoundaryBefore (some p) && wordBoundaryAfter r
        | none => false) = false := by
      cases hm : matchCIPrefix kw (t :: (tw2 ++ z)) with
      | none => rfl
      | some q2 => simp [wordBoundaryBefore, hp]
    rw [hch]
    simp only [Bool.false_or]
    exact ih hall.2 z t hall.1

theorem hasBoundedOcc_runs_bounded (kw : List Char) (hkw : kw ≠ [])
    (hw : kw.all wordChar = true) :
    ∀ (n : ℕ) (s : List Char), s.length ≤ n →
      ∀ (prev : Option Char), wordBoundaryBefore prev = true →
        hasBoundedOccAux kw prev s =
          (wordRuns s).any (fun w => toLowerL w == kw) := by
  obtain ⟨a, kw2, hkwc⟩ : ∃ a kw2, kw = a :: kw2 := by
    cases kw with
    | nil => exact absurd rfl hkw
    | cons a kw2 => exact ⟨a, kw2, rfl⟩
  have hwa : wordChar a = true := by
    rw [hkwc] at hw
    simp only [List.all_cons, Bool.and_eq_true] at hw
    exact hw.1
  intro n
  induction n with
  | zero =>
    intro s hs prev hbb
    have : s = [] := List.length_eq_zero.mp (Nat.le_zero.mp hs)
    subst this
    rw [hasBoundedOccAux_nil, wordRuns_nil]
    rfl
  | succ n ih =>
    intro s hs prev hbb
    cases s with
    | nil =>
      rw [hasBoundedOccAux_nil, wordRuns_nil]
      rfl
    | cons c rest =>
      simp only [List.length_cons] at hs
      by_cases hc : wordChar c = true
      · have hsplit : rest.takeWhile wordChar ++ rest.dropWhile wordChar = rest :=
          List.takeWhile_append_dropWhile _ _
        have htwall : (rest.takeWhile wordChar).all wordChar = true := by
          rw [List.all_eq_true]
          intro x hx
          exact List.mem_takeWhile_imp hx
        have hba : wordBoundaryAfter (rest.dropWhile wordChar) = true := by
          cases hdz : rest.dropWhile wordChar with
          | nil => rfl
          | cons d z2 =>
            simp only [wordBoundaryAfter]
            rw [dropWhile_head_not wordChar rest d z2 hdz]
            rfl
        rw [hasBoundedOccAux_cons]
        have hcheck : (match matchCIPrefix kw (c :: rest) with
            | some (_, r) => wordBoundaryBefore prev && wordBoundaryAfter r
            | none => false) = (toLowerL (c :: rest.takeWhile wordChar) == kw) := by
          by_cases hkweq : toLowerL (c :: rest.takeWhile wordChar) = kw
          · have hmatch : matchCIPrefix kw (c :: rest) =
                some (c :: rest.takeWhile wordChar, rest.dropWhile wordChar) := by
              have hms := matchCIPrefix_self (c :: rest.takeWhile wordChar)
                (rest.dropWhile wordChar)
              rw [hkweq] at hms
              rw [← hms]
              congr 1
              rw [List.cons_append, hsplit]
            rw [hmatch]
            dsimp only
            rw [hbb, hba]
            simp [hkweq]
          · have hne : (toLowerL (c :: rest.takeWhile wordChar) == kw) = false := by
              simp [hkweq]
            rw [hne]
            cases hm : matchCIPrefix kw (c :: rest) with
            | none => rfl
            | some q2 =>
              obtain ⟨u, r⟩ := q2
              dsimp only
              by_cases hbar : wordBoundaryAfter r = true
              · exfalso
                apply hkweq
                have hdec := matchCIPrefix_decomp kw _ _ _ hm
                have huw : u.all wordChar = true := matchCIPrefix_all_word kw hw _ _ _ hm
                have hrhd : ∀ d, r.head? = some d → wordChar d = false := by
                  intro d hd
                  cases r with
                  | nil => exact Option.noConfusion hd
                  | cons e r2 =>
                    simp only [List.head?_cons, Option.some_inj] at hd
                    subst hd
                    simpa [wordBoundaryAfter] using hbar
                have hu : (c :: rest).takeWhile wordChar = u := by
                  rw [hdec]
                  exact takeWhile_eq_of_split wordChar u r huw hrhd
                have hut : toLowerL u = kw := matchCIPrefix_toLower kw _ _ _ hm
                rw [← hut, ← hu]
                rw [List.takeWhile_cons_of_pos hc]
              · simp [show wordBoundaryAfter r = false by simpa using hbar]
        rw [hcheck]
        rw [wordRuns_cons_word c rest hc, List.any_cons]
        obtain ⟨q, hq, hirun⟩ := hasBoundedOccAux_in_run kw (rest.takeWhile wordChar)
          htwall (rest.dropWhile wordChar) c hc
        rw [hsplit] at hirun
        rw [hirun]
        congr 1
        cases hdz : rest.dropWhile wordChar with
        | nil =>
          rw [hasBoundedOccAux_nil, wordRuns_nil]
          rfl
        | cons d z2 =>
          have hd : wordChar d = false := dropWhile_head_not wordChar rest d z2 hdz
          rw [hasBoundedOccAux_cons]
          have hch2 : (match matchCIPrefix kw (d :: z2) with
              | some (_, r) => wordBoundaryBefore (some q) && wordBoundaryAfter r
              | none => false) = false := by
            rw [hkwc, matchCIPrefix_none_nonword a kw2 hwa d hd z2]
          rw [hch2]
          simp only [Bool.false_or]
          have hlen2 : z2.length ≤ n := by
            have h1 := dropWhileLengthLe wordChar rest
            have h2 := congrArg List.length hdz
            simp only [List.length_cons] at h2
            omega
          rw [ih z2 hlen2 (some d) (by simp [wordBoundaryBefore, hd])]
          rw [wordRuns_cons_nonword d z2 hd]
      · have hcf : wordChar c = false := by simpa using hc
        rw [hasBoundedOccAux_cons]
        have hch : (match matchCIPrefix kw (c :: rest) with
            | some (_, r) => wordBoundaryBefore prev && wordBoundaryAfter r
            | none => false) = false := by
          rw [hkwc, matchCIPrefix_none_nonword a kw2 hwa c hcf rest]
        rw [hch]
        simp only [Bool.false_or]
        rw [wordRuns_cons_nonword c rest hcf]
        exact ih rest (by omega) (some c) (by simp [wordBoundaryBefore, hcf])

theorem hasBoundedOcc_runs (kw : List Char) (hkw : kw ≠ [])
    (hw : kw.all wordChar = true) (s : List Char) :
    hasBoundedOcc kw s = (wordRuns s).any (fun w => toLowerL w == kw) :=
  hasBoundedOcc_runs_bounded kw hkw hw s.length s (le_refl _) none rfl

theorem any_keyword_filter_not (l : List (List Char)) (kw : List Char) :
    ((l.filter (fun w => !(toLowerL w == kw))).any (fun w => toLowerL w == kw)) = false := by
  induction l with
  | nil => rfl
  | cons x l2 ih =>
    rw [List.filter_cons]
    by_cases hx : (toLowerL x == kw) = true
    · simp only [hx, Bool.not_true, Bool.false_eq_true, if_false]
      exact ih
    · have hx2 : (toLowerL x == kw) = false := by simpa using hx
      simp only [hx2, Bool.not_false, if_true, List.any_cons, hx2, Bool.false_or]
      exact ih

theorem hasBoundedOcc_remove_self (kw : List Char) (hkw : kw ≠ [])
    (hw : kw.all wordChar = true) (s : List Char) :
    hasBoundedOcc kw (pyReSubBounded kw s) = false := by
  rw [hasBoundedOcc_runs kw hkw hw]
  rw [removeBounded_runs kw hkw hw s]
  exact any_keyword_filter_not _ _

theorem hasBoundedOcc_false_of_runs_subset (kw : List Char) (hkw : kw ≠ [])
    (hw : kw.all wordChar = true) (s t : List Char)
    (hsub : ∀ w ∈ wordRuns t, w ∈ wordRuns s)
    (h : hasBoundedOcc kw s = false) :
    hasBoundedOcc kw t = false := by
  rw [hasBoundedOcc_runs kw hkw hw] at h ⊢
  rw [List.any_eq_false] at h ⊢
  intro w hwmem
  exact h w (hsub w hwmem)

theorem hasBoundedOcc_remove_other (kw kw2 : List Char) (hkw : kw ≠ [])
    (hw : kw.all wordChar = true) (hkw2 : kw2 ≠ []) (hw2 : kw2.all wordChar = true)
    (s : List Char) (h : hasBoundedOcc kw s = false) :
    hasBoundedOcc kw (pyReSubBounded kw2 s) = false := by
  apply hasBoundedOcc_false_of_runs_subset kw hkw hw s _ _ h
  rw [removeBounded_runs kw2 hkw2 hw2 s]
  intro w hwmem
  exact List.mem_of_mem_filter hwmem

theorem wordChar_not_pySpace (c : Char) (h : wordChar c = true) : pySpace c = false := by
  by_contra hx
  have hx2 : pySpace c = true := by simpa using hx
  rw [pySpace_not_wordChar c hx2] at h
  exact Bool.noConfusion h

theorem collapseWSAux_cons (b : Bool) (c : Char) (rest : List Char) :
    collapseWSAux b (c :: rest) =
      if pySpace c then
        (if b then collapseWSAux true rest else ' ' :: collapseWSAux true rest)
      else c :: collapseWSAux false rest := rfl

theorem collapseWSAux_copy (tw : List Char) (h : tw.all (fun c => !pySpace c) = true) :
    ∀ z, collapseWSAux false (tw ++ z) = tw ++ collapseWSAux false z := by
  induction tw with
  | nil => intro z; rfl
  | cons t tw2 ih =>
    intro z
    simp only [List.all_cons, Bool.and_eq_true, Bool.not_eq_true'] at h
    rw [List.cons_append, collapseWSAux_cons, if_neg (by simp [h.1])]
    rw [ih (by rw [List.all_eq_true]; intro x hx
               have := (List.all_eq_true.mp h.2) x hx
               simpa using this) z]
    rfl

theorem collapse_head_boundary (z : List Char) (hz : wordBoundaryAfter z = true) :
    wordBoundaryAfter (collapseWSAux false z) = true := by
  cases z with
  | nil => rfl
  | cons d z2 =>
    rw [collapseWSAux_cons]
    by_cases hd : pySpace d = true
    · rw [if_pos hd]
      simp only [Bool.false_eq_true, if_false]
      simp only [wordBoundaryAfter]
      decide
    · rw [if_neg hd]
      simpa [wordBoundaryAfter] using hz

theorem wordRuns_collapse_bounded :
    ∀ (n : ℕ) (s : List Char), s.length ≤ n → ∀ (b : Bool),
      wordRuns (collapseWSAux b s) = wordRuns s := by
  intro n
  induction n with
  | zero =>
    intro s hs b
    have : s = [] := List.length_eq_zero.mp (Nat.le_zero.mp hs)
    subst this
    rfl
  | succ n ih =>
    intro s hs b
    cases s with
    | nil => rfl
    | cons c rest =>
      simp only [List.length_cons] at hs
      rw [collapseWSAux_cons]
      by_cases hsp : pySpace c = true
      · rw [if_pos hsp]
        have hcw : wordChar c = false := pySpace_not_wordChar c hsp
        cases b with
        | true =>
          simp only [if_true]
          rw [ih rest (by omega) true]
          rw [wordRuns_cons_nonword c rest hcw]
        | false =>
          simp only [Bool.false_eq_true, if_false]
          rw [wordRuns_cons_nonword ' ' _ (by decide)]
          rw [ih rest (by omega) true]
          rw [wordRuns_cons_nonword c rest hcw]
      · rw [if_neg hsp]
        by_cases hc : wordChar c = true
        · have htwall : (rest.takeWhile wordChar).all wordChar = true := by
            rw [List.all_eq_true]
            intro x hx
            exact List.mem_takeWhile_imp hx
          have htwns : (rest.takeWhile wordChar).all (fun c => !pySpace c) = true := by
            rw [List.all_eq_true]
            intro x hx
            simp only [Bool.not_eq_true']
            exact wordChar_not_pySpace x ((List.all_eq_true.mp htwall) x hx)
          have hsplit : rest.takeWhile wordChar ++ rest.dropWhile wordChar = rest :=
            List.takeWhile_append_dropWhile _ _
          have hba : wordBoundaryAfter (rest.dropWhile wordChar) = true := by
            cases hdz : rest.dropWhile wordChar with
            | nil => rfl
            | cons d z2 =>
              simp only [wordBoundaryAfter]
              rw [dropWhile_head_not wordChar rest d z2 hdz]
              rfl
          conv_lhs => rw [show rest = rest.takeWhile wordChar ++ rest.dropWhile wordChar
                          from hsplit.symm]
          rw [collapseWSAux_copy _ htwns]
          rw [show c :: (rest.takeWhile wordChar ++
                collapseWSAux false (rest.dropWhile wordChar)) =
              (c :: rest.takeWhile wordChar) ++
                collapseWSAux false (rest.dropWhile wordChar)
              from rfl]
          rw [wordRuns_append_run (c :: rest.takeWhile wordChar) _
              (by simp)
              (by simp only [List.all_cons, Bool.and_eq_true]; exact ⟨hc, htwall⟩)
              (collapse_head_boundary _ hba)]
          rw [ih (rest.dropWhile wordChar)
              (by have := dropWhileLengthLe wordChar rest; omega) false]
          rw [wordRuns_cons_word c rest hc]
        · have hcf : wordChar c = false := by simpa using hc
          rw [wordRuns_cons_nonword c _ hcf, wordRuns_cons_nonword c rest hcf]
          exact ih rest (by omega) false

theorem wordRuns_collapseWS (s : List Char) : wordRuns (collapseWS s) = wordRuns s :=
  wordRuns_collapse_bounded s.length s (le_refl _) false

theorem wordRuns_dropWhile_left (p : Char → Bool)
    (hp : ∀ c, p c = true → wordChar c = false) (s : List Char) :
    wordRuns (s.dropWhile p) = wordRuns s := by
  conv_rhs => rw [← List.takeWhile_append_dropWhile p s]
  rw [wordRuns_append_left_nonword _ _ (by
    rw [List.all_eq_true]
    intro x hx
    simp only [Bool.not_eq_true']
    exact hp x (List.mem_takeWhile_imp hx))]

theorem wordRuns_stripEdges (p : Char → Bool)
    (hp : ∀ c, p c = true → wordChar c = false) (s : List Char) :
    wordRuns (((s.dropWhile p).reverse.dropWhile p).reverse) = wordRuns s := by
  have h1 : wordRuns (s.dropWhile p) = wordRuns s := wordRuns_dropWhile_left p hp s
  have hsplit : (s.dropWhile p).reverse.takeWhile p ++ (s.dropWhile p).reverse.dropWhile p =
      (s.dropWhile p).reverse := List.takeWhile_append_dropWhile _ _
  have hd : s.dropWhile p =
      ((s.dropWhile p).reverse.dropWhile p).reverse ++
        ((s.dropWhile p).reverse.takeWhile p).reverse := by
    have h2 := congrArg List.reverse hsplit
    rw [List.reverse_append, List.reverse_reverse] at h2
    exact h2.symm
  rw [← h1]
  conv_rhs => rw [hd]
  rw [wordRuns_append_right_nonword _ _ (by
    rw [List.all_reverse, List.all_eq_true]
    intro x hx
    simp only [Bool.not_eq_true']
    exact hp x (List.mem_takeWhile_imp hx))]

theorem wordRuns_pyStrip (s : List Char) : wordRuns (pyStrip s) = wordRuns s :=
  wordRuns_stripEdges pySpace pySpace_not_wordChar s

theorem wordRuns_pyStripChars (cs : List Char) (s : List Char)
    (hset : ∀ c, cs.contains c = true → wordChar c = false) :
    wordRuns (pyStripChars cs s) = wordRuns s :=
  wordRuns_stripEdges _ hset s

theorem tryConnector_some :
    ∀ (conns : List String) (s out : List Char), tryConnector conns s = some out →
      ∃ conn ∈ conns, ∃ u z, matchCIPrefix (lc conn) s = some (u, z) ∧
        (∃ d z2, z = d :: z2 ∧ pySpace d = true) ∧ out = z.dropWhile pySpace := by
  intro conns
  induction conns with
  | nil => intro s out h; exact Option.noConfusion h
  | cons conn others ih =>
    intro s out h
    simp only [tryConnector] at h
    cases hm : matchCIPrefix (lc conn) s with
    | none =>
      rw [hm] at h
      obtain ⟨c2, hc2, rest⟩ := ih s out h
      exact ⟨c2, List.mem_cons_of_mem _ hc2, rest⟩
    | some q =>
      obtain ⟨u, z⟩ := q
      rw [hm] at h
      dsimp only at h
      cases hz : z with
      | nil =>
        rw [hz] at h
        obtain ⟨c2, hc2, rest⟩ := ih s out h
        exact ⟨c2, List.mem_cons_of_mem _ hc2, rest⟩
      | cons d z2 =>
        rw [hz] at h
        dsimp only at h
        by_cases hd : pySpace d = true
        · rw [if_pos hd] at h
          simp only [Option.some_inj] at h
          refine ⟨conn, List.mem_cons_self _ _, u, d :: z2, ?_, ⟨d, z2, rfl, hd⟩, h.symm⟩
          rw [← hz]
          exact hm
        · rw [if_neg hd] at h
          obtain ⟨c2, hc2, rest⟩ := ih s out h
          exact ⟨c2, List.mem_cons_of_mem _ hc2, rest⟩

theorem wordRuns_stripLeadingConnector_subset (s : List Char) :
    ∀ w ∈ wordRuns (stripLeadingConnector s), w ∈ wordRuns s := by
  unfold stripLeadingConnector
  cases h : tryConnector connectorList s with
  | none => intro w hw; simpa using hw
  | some out =>
    intro w hw
    simp only [Option.getD_some] at hw
    obtain ⟨conn, hconn, u, z, hm, ⟨d, z2, hz, hd⟩, hout⟩ :=
      tryConnector_some connectorList s out h
    have hcw : (lc conn) ≠ [] ∧ (lc conn).all wordChar = true := by
      have : ∀ c ∈ connectorList, (lc c) ≠ [] ∧ (lc c).all wordChar = true := by decide
      exact this conn hconn
    have hul : toLowerL u = lc conn := matchCIPrefix_toLower _ _ _ _ hm
    have hune : u ≠ [] := by
      intro he
      rw [he] at hul
      exact hcw.1 hul.symm
    have huw : u.all wordChar = true := matchCIPrefix_all_word _ hcw.2 _ _ _ hm
    have hdec : s = u ++ z := matchCIPrefix_decomp _ _ _ _ hm
    have hzb : wordBoundaryAfter z = true := by
      rw [hz]
      simp only [wordBoundaryAfter]
      rw [pySpace_not_wordChar d hd]
      rfl
    have hruns : wordRuns s = u :: wordRuns z := by
      rw [hdec]
      exact wordRuns_append_run u z hune huw hzb
    have hzout : wordRuns out = wordRuns z := by
      rw [hout]
      exact wordRuns_dropWhile_left pySpace pySpace_not_wordChar z
    rw [hzout] at hw
    rw [hruns]
    exact List.mem_cons_of_mem _ hw

theorem foldl_preserve {β : Type} (f : List Char → β → List Char) (P : List Char → Prop) :
    ∀ (l : List β), (∀ t b, b ∈ l → P t → P (f t b)) → ∀ t, P t → P (l.foldl f t) := by
  intro l
  induction l with
  | nil => intro _ t ht; exact ht
  | cons b l2 ih =>
    intro hpres t ht
    rw [List.foldl_cons]
    exact ih (fun t2 b2 hb2 ht2 => hpres t2 b2 (List.mem_cons_of_mem _ hb2) ht2)
      (f t b) (hpres t b (List.mem_cons_self _ _) ht)

theorem foldl_establish {β : Type} (f : List Char → β → List Char) (P : List Char → Prop) :
    ∀ (l : List β) (b0 : β), b0 ∈ l → (∀ t, P (f t b0)) →
      (∀ t b, b ∈ l → P t → P (f t b)) → ∀ t, P (l.foldl f t) := by
  intro l
  induction l with
  | nil => intro b0 hb0 _ _ _; exact absurd hb0 (List.not_mem_nil b0)
  | cons b l2 ih =>
    intro b0 hb0 hest hpres t
    rw [List.foldl_cons]
    rcases List.mem_cons.mp hb0 with he | hm
    · subst he
      exact foldl_preserve f P l2
        (fun t2 b2 hb2 ht2 => hpres t2 b2 (List.mem_cons_of_mem _ hb2) ht2)
        (f t b0) (hest t)
    · exact ih b0 hm hest
        (fun t2 b2 hb2 ht2 => hpres t2 b2 (List.mem_cons_of_mem _ hb2) ht2) (f t b)

theorem descriptionKeywords_word :
    ∀ kw ∈ descriptionKeywords, 3 < (lc kw).length →
      ((lc kw) ≠ [] ∧ (lc kw).all wordChar = true) := by decide

theorem expense_indicators_word :
    ∀ kw ∈ expense_indicators_all, (lc kw) ≠ [] ∧ (lc kw).all wordChar = true := by decide

theorem stripChars_set_nonword : ∀ c, (lc "!,.:;-").contains c = true → wordChar c = false := by
  intro c h
  have hm : c ∈ lc "!,.:;-" := by simpa using h
  have : c = '!' ∨ c = ',' ∨ c = '.' ∨ c = ':' ∨ c = ';' ∨ c = '-' := by
    simpa [lc] using hm
  rcases this with h | h | h | h | h | h <;> (subst h; decide)

theorem transaction_no_keyword :
    ∀ kw : String,
      (kw ∈ descriptionKeywords ∧ 3 < (lc kw).length ∨ kw ∈ expense_indicators_all) →
      hasBoundedOcc (lc kw) (lc "Transaction") = false := by
  intro kw h
  rcases h with ⟨hmem, hl⟩ | hmem
  · have hd : ∀ kw ∈ descriptionKeywords, 3 < (lc kw).length →
        hasBoundedOcc (lc kw) (lc "Transaction") = false := by decide
    exact hd kw hmem hl
  · have hd : ∀ kw ∈ expense_indicators_all,
        hasBoundedOcc (lc kw) (lc "Transaction") = false := by decide
    exact hd kw hmem

/-- C6 (amended): under no truncation, the final description contains no
word-bounded case-insensitive occurrence of any built-in category
keyword longer than 3 characters, nor of any expense indicator.  The
claim as stated fails for triggering keywords of at most 3 characters,
for non-word-bounded occurrences, for user-category names, and for
re-occurrences of the matched amount substring (see the
counterexample). -/
theorem C6_description_keywords_removed (text : List Char) (amount : Option ℚ)
    (kw : String)
    (hkw : kw ∈ descriptionKeywords ∧ 3 < (lc kw).length ∨ kw ∈ expense_indicators_all)
    (hlen : (descriptionPreTruncation text amount).length ≤ 100) :
    hasBoundedOcc (lc kw) (extract_description text amount) = false := by
  have hkwp : (lc kw) ≠ [] ∧ (lc kw).all wordChar = true := by
    rcases hkw with ⟨hmem, hl⟩ | hmem
    · exact descriptionKeywords_word kw hmem hl
    · exact expense_indicators_word kw hmem
  have hpres3 : ∀ t k2, k2 ∈ expense_indicators_all →
      hasBoundedOcc (lc kw) t = false →
      hasBoundedOcc (lc kw) (pyReSubBounded (lc k2) t) = false := by
    intro t k2 hk2 ht
    obtain ⟨hne2, hw2⟩ := expense_indicators_word k2 hk2
    exact hasBoundedOcc_remove_other _ _ hkwp.1 hkwp.2 hne2 hw2 t ht
  have hP3 : hasBoundedOcc (lc kw)
      (expense_indicators_all.foldl (fun t k2 => pyReSubBounded (lc k2) t)
        (descriptionKeywords.foldl
          (fun t k2 => if (lc k2).length ≤ 3 then t else pyReSubBounded (lc k2) t)
          (if pyTruthyAmount amount then currencySub (amountSub text) else text))) =
      false := by
    rcases hkw with ⟨hmem, hl⟩ | hmem
    · have hP2 : hasBoundedOcc (lc kw)
          (descriptionKeywords.foldl
            (fun t k2 => if (lc k2).length ≤ 3 then t else pyReSubBounded (lc k2) t)
            (if pyTruthyAmount amount then currencySub (amountSub text) else text)) =
          false := by
        apply foldl_establish _ (fun t => hasBoundedOcc (lc kw) t = false)
          descriptionKeywords kw hmem
        · intro t
          rw [if_neg (by omega)]
          exact hasBoundedOcc_remove_self _ hkwp.1 hkwp.2 t
        · intro t k2 hk2 ht
          by_cases hl2 : (lc k2).length ≤ 3
          · rw [if_pos hl2]
            exact ht
          · rw [if_neg hl2]
            obtain ⟨hne2, hw2⟩ := descriptionKeywords_word k2 hk2 (by omega)
            exact hasBoundedOcc_remove_other _ _ hkwp.1 hkwp.2 hne2 hw2 t ht
      exact foldl_preserve _ (fun t => hasBoundedOcc (lc kw) t = false)
        expense_indicators_all hpres3 _ hP2
    · exact foldl_establish _ (fun t => hasBoundedOcc (lc kw) t = false)
        expense_indicators_all kw hmem
        (fun t => hasBoundedOcc_remove_self _ hkwp.1 hkwp.2 t)
        hpres3 _
  have hP6 : hasBoundedOcc (lc kw) (descriptionPreTruncation text amount) = false := by
    apply hasBoundedOcc_false_of_runs_subset _ hkwp.1 hkwp.2 _ _ _ hP3
    intro w hw2
    have he : wordRuns (descriptionPreTruncation text amount) =
        wordRuns (stripLeadingConnector
          (pyStrip (collapseWS
            (expense_indicators_all.foldl (fun t k2 => pyReSubBounded (lc k2) t)
              (descriptionKeywords.foldl
                (fun t k2 => if (lc k2).length ≤ 3 then t else pyReSubBounded (lc k2) t)
                (if pyTruthyAmount amount then currencySub (amountSub text) else text)))))) :=
      wordRuns_pyStripChars _ _ stripChars_set_nonword
    rw [he] at hw2
    have hsub := wordRuns_stripLeadingConnector_subset
      (pyStrip (collapseWS
        (expense_indicators_all.foldl (fun t k2 => pyReSubBounded (lc k2) t)
          (descriptionKeywords.foldl
            (fun t k2 => if (lc k2).length ≤ 3 then t else pyReSubBounded (lc k2) t)
            (if pyTruthyAmount amount then currencySub (amountSub text) else text)))))
      w hw2
    rw [wordRuns_pyStrip, wordRuns_collapseWS] at hsub
    exact hsub
  rw [extract_description_eq]
  have ht7 : ¬ ((descriptionPreTruncation text amount).length > 100) := by omega
  rw [if_neg ht7]
  by_cases hemp : (descriptionPreTruncation text amount).isEmpty = true
  · rw [if_pos hemp]
    exact transaction_no_keyword kw hkw
  · rw [if_neg hemp]
    exact hP6

/-- C6 counterexample, four independent refutations: (1) the triggering
food keyword eat (3 characters, skipped by the length filter) survives
verbatim as the description; (2) the triggering transport keyword taxi
survives inside the word taxis (no word boundary); (3) the raw matched
amount substring 50k (with its trailing separator) reappears inside the
description abc50k x; (4) a user-category name that triggered the match
is never removed. -/
theorem C6_counterexample :
    ((detect_category_strict (lc "50k eat") []).1 = some "food" ∧
     "eat" ∈ (detect_category_strict (lc "50k eat") []).2.2 ∧
     (parse_with_rules (lc "50k eat") []).description = lc "eat" ∧
     containsSub (lc "eat") (lc "eat") = true) ∧
    ((detect_category_strict (lc "50k taxis") []).1 = some "transport" ∧
     "taxi" ∈ (detect_category_strict (lc "50k taxis") []).2.2 ∧
     (parse_with_rules (lc "50k taxis") []).description = lc "taxis" ∧
     containsSub (lc "taxi") (lc "taxis") = true) ∧
    (searchAmount (toLowerL (lc "50k abc50k x")) =
       some ⟨none, lc "50", none, [], lc "k", some ' '⟩ ∧
     amountGroup0 ⟨none, lc "50", none, [], lc "k", some ' '⟩ = lc "50k " ∧
     (parse_with_rules (lc "50k abc50k x") []).description = lc "abc50k x" ∧
     containsSub (lc "50k ") (lc "abc50k x") = true) ∧
    ((parse_with_rules (lc "50k netflix") [⟨"netflix"⟩]).category = some "netflix" ∧
     (parse_with_rules (lc "50k netflix") [⟨"netflix"⟩]).description = lc "netflix" ∧
     containsSub (lc "netflix") (lc "netflix") = true) := by decide

/-- C6 witness: the amended removal guarantee applied to the transport
keyword on a concrete input. -/
theorem C6_description_keywords_removed_witness :
    (("taxi" ∈ descriptionKeywords ∧ 3 < (lc "taxi").length ∨
        "taxi" ∈ expense_indicators_all) ∧
      (descriptionPreTruncation (lc "500 taxi ride home") (some 500)).length ≤ 100) ∧
    hasBoundedOcc (lc "taxi")
      (extract_description (lc "500 taxi ride home") (some 500)) = false :=
  ⟨⟨by decide, by decide⟩,
   C6_description_keywords_removed (lc "500 taxi ride home") (some 500) "taxi"
     (by decide) (by decide)⟩

end FinanceTracker
